import Mathlib

/-!
Verification of `gwak.py`, a file deduplicator: files are fingerprinted by
(size, SHA3-512 hash), duplicate groups are "buried" (one body file kept in a
content-addressed `grave/<size>/<hash>` store, every original path replaced by
a symlink) and can later be "exhumed" (bodies copied back over the links).

The embedding models the filesystem as an association list from absolute paths
(component lists) to nodes (regular file with bytes, symlink, directory), and
the operations of the source as computations in `EStateM Err FS`, so that a
raised Python exception corresponds to an `error` result that still carries
the filesystem state at the time of the raise.
-/

namespace Gwak

/-- A filesystem path, as its list of components (all paths in the source are
absolute: `make_manifest` records `file.resolve()`, the grave is resolved). -/
abbrev Path := List String

/-- The target of a symbolic link: `_bury` passes either the absolute body
path (`isabs`) or the string produced by `os.path.relpath`. -/
inductive SymTarget where
  | abs (p : Path)
  | rel (comps : List String)
  deriving DecidableEq, Repr

/-- A filesystem node. -/
inductive Node where
  | file (bytes : List Nat)
  | symlink (target : SymTarget)
  | dir
  deriving DecidableEq, Repr

/-- The filesystem: an association list from paths to nodes.  Operations keep
at most one entry per path. -/
abbrev FS := List (Path × Node)

/-- Look a path up (the node stored at exactly this path, no symlink
following — like `os.lstat`). -/
def FS.get : FS → Path → Option Node
  | [], _ => none
  | (q, n) :: t, p => if q = p then some n else FS.get t p

/-- Remove the entry at a path (`os.unlink` / `os.rmdir`). -/
def FS.del : FS → Path → FS
  | [], _ => []
  | (q, n) :: t, p => if q = p then FS.del t p else (q, n) :: FS.del t p

/-- Create or replace the entry at a path. -/
def FS.set (fs : FS) (p : Path) (n : Node) : FS := (p, n) :: FS.del fs p

/-- `str(path)` for an absolute `pathlib.Path`. -/
def renderPath (p : Path) : String := "/" ++ String.intercalate "/" p

/-- Rendering of a symlink target as recorded by `_bury` (`str(link)`). -/
def renderTarget : SymTarget → String
  | .abs p => renderPath p
  | .rel comps => String.intercalate "/" comps

/-- Length of the longest common prefix of two component lists (the
`os.path.commonprefix` step inside `os.path.relpath`). -/
def commonPrefixLen : List String → List String → Nat
  | a :: as, b :: bs => if a = b then commonPrefixLen as bs + 1 else 0
  | _, _ => 0

/-- `os.path.relpath target start` on absolute paths: climb out of the
non-shared part of `start` with `..` components, then descend into the
non-shared part of `target`. -/
def relpath (target start : List String) : List String :=
  let k := commonPrefixLen target start
  let ups := start.length - k
  let rest := target.drop k
  if ups = 0 ∧ rest = [] then ["."] else List.replicate ups ".." ++ rest

/-- Resolve a symlink target against the directory containing the link. -/
def targetPath (linkParent : Path) : SymTarget → Path
  | .abs p => p
  | .rel comps =>
      comps.foldl
        (fun acc c =>
          if c = ".." then acc.dropLast else if c = "." then acc else acc ++ [c])
        linkParent

/-- Follow symlinks at the final path component, with fuel (the kernel stops
chains at ~40 links with `ELOOP`); returns the final path, or `none` when the
chain is too long. -/
def resolveLinks (fs : FS) : Nat → Path → Option Path
  | 0, _ => none
  | fuel + 1, p =>
      match FS.get fs p with
      | some (.symlink t) => resolveLinks fs fuel (targetPath p.dropLast t)
      | _ => some p

/-- The node a path finally designates, following symlinks (`os.stat`). -/
def FS.statNode (fs : FS) (p : Path) : Option Node :=
  (resolveLinks fs 41 p).bind (FS.get fs)

/-- `Path.is_file()`: true for a regular file or a symlink resolving to one
(any `OSError`, e.g. a dangling link or a loop, yields `False`). -/
def FS.isFile (fs : FS) (p : Path) : Bool :=
  match FS.statNode fs p with
  | some (.file _) => true
  | _ => false

/-- `Path.is_dir()`: true for a directory or a symlink resolving to one. -/
def FS.isDir (fs : FS) (p : Path) : Bool :=
  match FS.statNode fs p with
  | some .dir => true
  | _ => false

/-- Whether any entry lies strictly below `p` (`any(path.iterdir())` on a
directory whose ancestors are all materialized, as the code maintains). -/
def FS.hasChild (fs : FS) (p : Path) : Bool :=
  fs.any (fun e => p ≠ e.1 ∧ p <+: e.1)

/-- `os.path.samefile`: both paths resolve to the same existing node. -/
def FS.sameFile (fs : FS) (p q : Path) : Bool :=
  match resolveLinks fs 41 p, resolveLinks fs 41 q with
  | some a, some b => a = b ∧ (FS.get fs a).isSome
  | _, _ => false

/-! ## Hexadecimal rendering — `__format_size`, `int(size, 16)` -/

/-- One lowercase hexadecimal digit. -/
def hexChar (d : Nat) : Char := Char.ofNat (if d < 10 then 48 + d else 87 + d)

/-- Numeric value of a hexadecimal digit character, `none` otherwise. -/
def hexVal (c : Char) : Option Nat :=
  if 48 ≤ c.toNat ∧ c.toNat ≤ 57 then some (c.toNat - 48)
  else if 97 ≤ c.toNat ∧ c.toNat ≤ 102 then some (c.toNat - 87)
  else if 65 ≤ c.toNat ∧ c.toNat ≤ 70 then some (c.toNat - 55)
  else none

/-- `'{:016x}'.format n`: lowercase hexadecimal digits of `n`, left-padded
with zeros to width 16 (wider numbers keep all their digits).  Source:
`__format_size(body) = '{:016x}'.format(len(body))`. -/
def format_size_of_len (n : Nat) : String :=
  let ds := Nat.digits 16 n
  let padded := ds ++ List.replicate (16 - ds.length) 0
  String.mk (padded.reverse.map hexChar)

/-- `__format_size(body)`. -/
def format_size (body : List Nat) : String := format_size_of_len body.length

/-- One step of parsing a hexadecimal numeral. -/
def int16Step (acc : Option Nat) (c : Char) : Option Nat :=
  match acc, hexVal c with
  | some a, some v => some (16 * a + v)
  | _, _ => none

/-- `int(s, 16)` on a plain string of hexadecimal digits (the only shape the
manifest keys have); `none` models the `ValueError` raise on anything else. -/
def int16 (s : String) : Option Nat :=
  if s.data = [] then none else s.data.foldl int16Step (some 0)

/-! ## SHA3-512 — `hashlib.sha3_512(body).hexdigest()` (`__format_hash`)

Keccak-f[1600] over `Nat` lanes masked to 64 bits; state is the flat list of
25 lanes, index `x + 5*y`; rate 72 bytes, multi-rate padding `0x06 … 0x80`,
64-byte digest. -/

/-- Rotate a 64-bit lane left by `n`. -/
def rotl64 (x n : Nat) : Nat := ((x <<< n) ||| (x >>> (64 - n))) % (2 ^ 64)

/-- The 24 Keccak round constants. -/
def keccakRC : List Nat :=
  [0x0000000000000001, 0x0000000000008082, 0x800000000000808a,
   0x8000000080008000, 0x000000000000808b, 0x0000000080000001,
   0x8000000080008081, 0x8000000000008009, 0x000000000000008a,
   0x0000000000000088, 0x0000000080008009, 0x000000008000000a,
   0x000000008000808b, 0x800000000000008b, 0x8000000000008089,
   0x8000000000008003, 0x8000000000008002, 0x8000000000000080,
   0x000000000000800a, 0x800000008000000a, 0x8000000080008081,
   0x8000000000008080, 0x0000000080000001, 0x8000000080008008]

/-- Rotation offsets of the ρ step, indexed by `x + 5*y`. -/
def rhoOffsets : List Nat :=
  [0, 1, 62, 28, 27, 36, 44, 6, 55, 20, 3, 10] ++
    [43, 25, 39, 41, 45, 15, 21, 8, 18, 2, 61, 56, 14]

/-- θ step. -/
def theta (A : List Nat) : List Nat :=
  let C := (List.range 5).map (fun x =>
    A.getD x 0 ^^^ A.getD (x + 5) 0 ^^^ A.getD (x + 10) 0 ^^^
      A.getD (x + 15) 0 ^^^ A.getD (x + 20) 0)
  let D := (List.range 5).map (fun x =>
    C.getD ((x + 4) % 5) 0 ^^^ rotl64 (C.getD ((x + 1) % 5) 0) 1)
  (List.range 25).map (fun i => A.getD i 0 ^^^ D.getD (i % 5) 0)

/-- Combined ρ and π steps: `B[y, 2x+3y] = rotl(A[x, y], r[x, y])`. -/
def rhoPi (A : List Nat) : List Nat :=
  (List.range 25).foldl
    (fun B i =>
      let x := i % 5
      let y := i / 5
      B.set (y + 5 * ((2 * x + 3 * y) % 5)) (rotl64 (A.getD i 0) (rhoOffsets.getD i 0)))
    (List.replicate 25 0)

/-- χ step. -/
def chi (B : List Nat) : List Nat :=
  (List.range 25).map (fun i =>
    let x := i % 5
    let row := 5 * (i / 5)
    B.getD i 0 ^^^
      (((2 ^ 64 - 1) ^^^ B.getD (row + (x + 1) % 5) 0) &&& B.getD (row + (x + 2) % 5) 0))

/-- One Keccak round (θ, ρ, π, χ, ι). -/
def keccakRound (A : List Nat) (rc : Nat) : List Nat :=
  let C := chi (rhoPi (theta A))
  C.set 0 (C.getD 0 0 ^^^ rc)

/-- The Keccak-f[1600] permutation. -/
def keccakF (A : List Nat) : List Nat := keccakRC.foldl keccakRound A

/-- A little-endian 64-bit lane from (up to) 8 bytes. -/
def loadLane (bytes : List Nat) : Nat :=
  bytes.foldr (fun b acc => acc * 256 + b % 256) 0

/-- XOR one 72-byte rate block into the first 9 lanes. -/
def absorbBlock (A : List Nat) (block : List Nat) : List Nat :=
  (List.range 9).foldl
    (fun A j => A.set j (A.getD j 0 ^^^ loadLane ((block.drop (8 * j)).take 8)))
    A

/-- SHA-3 multi-rate padding to a multiple of the 72-byte rate. -/
def sha3pad (m : List Nat) : List Nat :=
  let rem := 72 - m.length % 72
  if rem = 1 then m ++ [0x86]
  else m ++ [0x06] ++ List.replicate (rem - 2) 0 ++ [0x80]

/-- Absorb a padded message block by block; the first argument is the block
count (structural fuel, so that the kernel can evaluate the definition). -/
def absorbBlocks : Nat → List Nat → List Nat → List Nat
  | 0, A, _ => A
  | fuel + 1, A, p => absorbBlocks fuel (keccakF (absorbBlock A (p.take 72))) (p.drop 72)

/-- The 64 bytes of the SHA3-512 digest of a byte string. -/
def sha3_512_bytes (m : List Nat) : List Nat :=
  let padded := sha3pad m
  let A := absorbBlocks (padded.length / 72) (List.replicate 25 0) padded
  (List.range 64).map (fun i => (A.getD (i / 8) 0 >>> (8 * (i % 8))) % 256)

/-- `__format_hash(body) = hashlib.sha3_512(body).hexdigest()`. -/
def format_hash (body : List Nat) : String :=
  String.mk ((sha3_512_bytes body).flatMap (fun b => [hexChar (b / 16), hexChar (b % 16)]))

/-! ## The settings object and the effect monad -/

/-- The resolved settings (`__params` in the source); `formats` is the list of
serialization formats whose modules imported successfully (`__formats`). -/
structure Params where
  grave : Path
  isabs : Bool
  dry_run : Bool
  force : Bool
  minsize : Nat
  mindupe : Nat
  manifest : Path
  format : String
  formats : List String
  deriving DecidableEq, Repr

/-- Python exceptions the modelled operations can raise. -/
inductive Err where
  | fileNotFound (p : Path)
  | fileExists (p : Path)
  | isADirectory (p : Path)
  | notADirectory (p : Path)
  | tooManyLinks (p : Path)
  | sameFile (p : Path)
  | notImplemented (format : String)
  | valueError (s : String)
  deriving DecidableEq, Repr

/-- The effect monad: filesystem state plus exceptions.  An `error` result
still carries the filesystem as it was when the exception was raised. -/
abbrev GwakM := EStateM Err FS

def getFS : GwakM FS := EStateM.get

def setFS (fs : FS) : GwakM Unit := EStateM.set fs

def throwErr {α : Type} (e : Err) : GwakM α := EStateM.throw e

/-- The manifest index: size key → hash key → recorded paths. -/
abbrev Gwaks := List (String × List (String × List Path))

/-- A `{'link': …, 'body': …}` record yielded by `_bury`. -/
structure Record where
  link : String
  body : String
  deriving DecidableEq, Repr

/-! ## Filesystem primitives (Python/`pathlib`/`os` calls) -/

/-- `Path.unlink()`: removes a file or a symlink (not following it); raises
`FileNotFoundError` when absent, `IsADirectoryError` on a directory. -/
def unlinkM (p : Path) : GwakM Unit := do
  let fs ← getFS
  match FS.get fs p with
  | none => throwErr (.fileNotFound p)
  | some .dir => throwErr (.isADirectory p)
  | some _ => setFS (FS.del fs p)

/-- `Path.rename(dst)`: moves the node at `src` to `dst`, silently replacing
an existing file at `dst` (POSIX) but failing on a directory. -/
def renameM (src dst : Path) : GwakM Unit := do
  let fs ← getFS
  match FS.get fs src with
  | none => throwErr (.fileNotFound src)
  | some n =>
      match FS.get fs dst with
      | some .dir => throwErr (.isADirectory dst)
      | _ => setFS (FS.set (FS.del fs src) dst n)

/-- `Path.symlink_to(target)`: fails if the path already exists. -/
def symlinkToM (p : Path) (t : SymTarget) : GwakM Unit := do
  let fs ← getFS
  match FS.get fs p with
  | none => setFS (FS.set fs p (.symlink t))
  | some _ => throwErr (.fileExists p)

/-- `Path.read_bytes()` (and the read half of `shutil.copyfile`): follows
symlinks to the final file. -/
def readBytesM (p : Path) : GwakM (List Nat) := do
  let fs ← getFS
  match resolveLinks fs 41 p with
  | none => throwErr (.tooManyLinks p)
  | some q =>
      match FS.get fs q with
      | some (.file b) => pure b
      | some .dir => throwErr (.isADirectory p)
      | some (.symlink _) => throwErr (.tooManyLinks p)
      | none => throwErr (.fileNotFound p)

/-- `open(p, 'w')` + write: follows symlinks, creates or truncates the final
file; fails on a directory. -/
def writeFileM (p : Path) (bytes : List Nat) : GwakM Unit := do
  let fs ← getFS
  match resolveLinks fs 41 p with
  | none => throwErr (.tooManyLinks p)
  | some q =>
      match FS.get fs q with
      | some .dir => throwErr (.isADirectory p)
      | _ => setFS (FS.set fs q (.file bytes))

/-- `shutil.copyfile(src, dst)`: raises `SameFileError` when both resolve to
the same existing node, then reads `src` fully and writes `dst`. -/
def copyfileM (src dst : Path) : GwakM Unit := do
  let fs ← getFS
  if FS.sameFile fs src dst then throwErr (.sameFile dst)
  let b ← readBytesM src
  writeFileM dst b

/-- One step of `mkdir`: create a directory if nothing is there, accept an
existing directory (`exist_ok`), fail on any other node. -/
def mkdirOne (q : Path) : GwakM Unit := do
  let fs ← getFS
  match FS.get fs q with
  | none => setFS (FS.set fs q .dir)
  | some .dir => pure ()
  | some _ => throwErr (.fileExists q)

/-- The nonempty prefixes of a path, shortest first (the root `/` always
exists and is skipped). -/
def prefixesOf (p : Path) : List Path := (List.range p.length).map (fun i => p.take (i + 1))

def mkdirList : List Path → GwakM Unit
  | [] => pure ()
  | q :: qs => do
      mkdirOne q
      mkdirList qs

/-- `Path.mkdir(parents = True, exist_ok = True)`. -/
def mkdirParentsM (p : Path) : GwakM Unit := mkdirList (prefixesOf p)

/-- `_rmdir(path)`: skip (returning `False`) unless `path.is_dir()` and it has
no entries; otherwise remove it (unless dry-run) and return `True`.
`Path.is_dir()` follows a final symlink and `iterdir()` lists the resolved
directory, but `os.rmdir` itself does not follow — on a symlink to an empty
directory the guard passes and the removal raises `NotADirectoryError`. -/
def rmdirM (P : Params) (p : Path) : GwakM Bool := do
  let fs ← getFS
  let q := (resolveLinks fs 41 p).getD p
  if !FS.isDir fs p || FS.hasChild fs q then pure false
  else
    (if !P.dry_run then
        match FS.get fs p with
        | some (.symlink _) => throwErr (.notADirectory p)
        | _ => setFS (FS.del fs p)
      else pure ()) >>= fun _ =>
    pure true

/-! ## The program operations -/

/-- `_is_smol(size)`: `int(size, 16) < minsize`; `none` models the
`ValueError` from `int` on a non-hexadecimal key. -/
def is_smol (P : Params) (size : String) : Option Bool :=
  (int16 size).map (fun n => decide (n < P.minsize))

/-- `body_dirname = grave / size`. -/
def bodyDirname (P : Params) (size : String) : Path := P.grave ++ [size]

/-- `body = body_dirname / hash`. -/
def bodyPath (P : Params) (size hash : String) : Path := bodyDirname P size ++ [hash]

/-- `link = body if isabs else os.path.relpath(body, file.parent)`. -/
def buryLink (P : Params) (size hash : String) (file : Path) : SymTarget :=
  if P.isabs then SymTarget.abs (bodyPath P size hash)
  else SymTarget.rel (relpath (bodyPath P size hash) file.dropLast)

/-- `_bury(size, hash, file)`.  (Written with explicit binds; the dry-run
gated steps are no-ops when skipped.) -/
def bury (P : Params) (size hash : String) (file : Path) : GwakM Record :=
  (if !P.dry_run then mkdirParentsM (bodyDirname P size) else pure ⟨⟩) >>= fun _ =>
  (if !P.dry_run then
      getFS >>= fun fs =>
      (if FS.isFile fs (bodyPath P size hash) then unlinkM file
       else renameM file (bodyPath P size hash)) >>= fun _ =>
      symlinkToM file (buryLink P size hash file)
   else pure ⟨⟩) >>= fun _ =>
  pure { link := renderTarget (buryLink P size hash file), body := renderPath file }

/-- The `for file in files: yield _bury(size, hash, Path(file))` loop. -/
def buryFiles (P : Params) (size hash : String) : List Path → GwakM (List Record)
  | [] => pure []
  | f :: fsx => do
      let r ← bury P size hash f
      let rs ← buryFiles P size hash fsx
      pure (r :: rs)

/-- The inner (per-hash) loop of `_dedupe`, with its duplicate-count guard. -/
def dedupeHashes (P : Params) (size : String) : List (String × List Path) → GwakM (List Record)
  | [] => pure []
  | (hash, files) :: rest => do
      let rs1 ←
        if files.length < P.mindupe && !P.force then pure []
        else buryFiles P size hash files
      let rs2 ← dedupeHashes P size rest
      pure (rs1 ++ rs2)

/-- The outer (per-size) loop of `_dedupe`, with the `_is_smol` guard
(evaluated before `force` is consulted, as in `_is_smol(size) and not force`). -/
def dedupeSizes (P : Params) : Gwaks → GwakM (List Record)
  | [] => pure []
  | (size, gwak) :: rest => do
      let rs1 ←
        match is_smol P size with
        | none => throwErr (.valueError size)
        | some smol => if smol && !P.force then pure [] else dedupeHashes P size gwak
      let rs2 ← dedupeSizes P rest
      pure (rs1 ++ rs2)

/-- `dedupe(gwaks) = list(_dedupe(gwaks))`. -/
def dedupe (P : Params) (gwaks : Gwaks) : GwakM (List Record) := dedupeSizes P gwaks

/-- The `for link in links` loop of `_exhume`. -/
def exhumeLinks (P : Params) (file : Path) : List Path → GwakM Unit
  | [] => pure ()
  | l :: ls =>
      (if !P.dry_run then unlinkM l >>= fun _ => copyfileM file l else pure ⟨⟩) >>=
        fun _ => exhumeLinks P file ls

/-- `_exhume(file, links)`: restore every link from the body, then with
`force` delete the body; always returns `True`. -/
def exhume (P : Params) (file : Path) (links : List Path) : GwakM Bool :=
  exhumeLinks P file links >>= fun _ =>
  (if P.force && !P.dry_run then unlinkM file else pure ⟨⟩) >>= fun _ =>
  pure true

/-- The inner (per-hash) loop of `_redupe`: skip when the body is not a file,
otherwise exhume and, with `force`, try to remove `hashdir` (which is the
body's own path, `sizedir / hash`). -/
def redupeHashes (P : Params) (grave : Path) (size : String) :
    List (String × List Path) → GwakM (List Bool)
  | [] => pure []
  | (hash, links) :: rest =>
      getFS >>= fun fs =>
      (if FS.isFile fs (grave ++ [size, hash]) then
          exhume P (grave ++ [size, hash]) links >>= fun b =>
          (if P.force then rmdirM P (grave ++ [size, hash]) else pure true) >>= fun _ =>
          pure [b]
        else pure []) >>= fun bs1 =>
      redupeHashes P grave size rest >>= fun bs2 =>
      pure (bs1 ++ bs2)

/-- The outer (per-size) loop of `_redupe`, removing `sizedir` with `force`. -/
def redupeSizes (P : Params) (grave : Path) : Gwaks → GwakM (List Bool)
  | [] => pure []
  | (size, gwak) :: rest =>
      redupeHashes P grave size gwak >>= fun bs1 =>
      (if P.force then rmdirM P (grave ++ [size]) else pure true) >>= fun _ =>
      redupeSizes P grave rest >>= fun bs2 =>
      pure (bs1 ++ bs2)

/-- `redupe(gwaks, grave) = all(_redupe(gwaks, grave))`. -/
def redupe (P : Params) (gwaks : Gwaks) (grave : Path) : GwakM Bool := do
  let bs ← redupeSizes P grave gwaks
  pure (bs.all id)

/-- `_validate_body(file, size, hash)`. -/
def validate_body (file : Path) (size hash : String) : GwakM Bool := do
  let body ← readBytesM file
  if size ≠ format_size body then pure false
  else if hash ≠ format_hash body then pure false
  else pure true

/-- The per-file loop of `_validate_files`: skip paths that are not files. -/
def validateFilesInner (size hash : String) : List Path → GwakM (List Bool)
  | [] => pure []
  | f :: rest => do
      let fs ← getFS
      let bs1 ←
        if FS.isFile fs f then do
          let b ← validate_body f size hash
          pure [b]
        else pure []
      let bs2 ← validateFilesInner size hash rest
      pure (bs1 ++ bs2)

def validateFilesHashes (size : String) : List (String × List Path) → GwakM (List Bool)
  | [] => pure []
  | (hash, files) :: rest => do
      let bs1 ← validateFilesInner size hash files
      let bs2 ← validateFilesHashes size rest
      pure (bs1 ++ bs2)

def validateFilesSizes : Gwaks → GwakM (List Bool)
  | [] => pure []
  | (size, gwak) :: rest => do
      let bs1 ← validateFilesHashes size gwak
      let bs2 ← validateFilesSizes rest
      pure (bs1 ++ bs2)

/-- `validate_files(gwaks) = all(_validate_files(gwaks))`. -/
def validate_files (gwaks : Gwaks) : GwakM Bool := do
  let bs ← validateFilesSizes gwaks
  pure (bs.all id)

/-- The per-hash loop of `_validate_grave`: skip fingerprints whose body is
not a file. -/
def validateGraveHashes (grave : Path) (size : String) :
    List (String × List Path) → GwakM (List Bool)
  | [] => pure []
  | (hash, _) :: rest => do
      let file := grave ++ [size, hash]
      let fs ← getFS
      let bs1 ←
        if FS.isFile fs file then do
          let b ← validate_body file size hash
          pure [b]
        else pure []
      let bs2 ← validateGraveHashes grave size rest
      pure (bs1 ++ bs2)

def validateGraveSizes (grave : Path) : Gwaks → GwakM (List Bool)
  | [] => pure []
  | (size, gwak) :: rest => do
      let bs1 ← validateGraveHashes grave size gwak
      let bs2 ← validateGraveSizes grave rest
      pure (bs1 ++ bs2)

/-- `validate_grave(gwaks, grave) = all(_validate_grave(gwaks, grave))`. -/
def validate_grave (gwaks : Gwaks) (grave : Path) : GwakM Bool := do
  let bs ← validateGraveSizes grave gwaks
  pure (bs.all id)

/-- `_backup_manifest()`: rename the manifest to
`f"{manifest}.{sha3 of its bytes}"`. -/
def backup_manifest (P : Params) : GwakM Unit := do
  let bytes ← readBytesM P.manifest
  renameM P.manifest
    (P.manifest.dropLast ++ [P.manifest.getLastD "" ++ "." ++ format_hash bytes])

/-- `_write_manifest(data)`.  The serializers themselves (`yaml.dump`,
`json.dump`) are external collaborators, passed in as encoding functions;
both return `None`, so a real run returns `none` while a dry run returns
`some true`.  Note the order: parent `mkdir` and the backup rename happen
before the format check, and `open(mode = 'w')` truncates the manifest before
the encoder writes. -/
def write_manifest (encodeYaml encodeJson : Gwaks → List Nat) (P : Params)
    (data : Gwaks) : GwakM (Option Bool) :=
  if P.dry_run then pure (some true)
  else
    mkdirParentsM P.manifest.dropLast >>= fun _ =>
    getFS >>= fun fs =>
    (if FS.isFile fs P.manifest then backup_manifest P else pure ()) >>= fun _ =>
    (if P.format ∉ P.formats then throwErr (.notImplemented P.format)
     else pure ()) >>= fun _ =>
    writeFileM P.manifest [] >>= fun _ =>
    match P.format with
    | "yaml" => writeFileM P.manifest (encodeYaml data) >>= fun _ => pure none
    | "json" => writeFileM P.manifest (encodeJson data) >>= fun _ => pure none
    | _ => pure none

/-- `_read_manifest()`: format check, then open and read; decoding the bytes
back into an index is the external serializer's job. -/
def read_manifest (P : Params) : GwakM (List Nat) :=
  (if P.format ∉ P.formats then throwErr (.notImplemented P.format)
   else pure ()) >>= fun _ =>
  readBytesM P.manifest

/-- A trivial encoder, used to instantiate the external serializer in
concrete runs. -/
def encZero : Gwaks → List Nat := fun _ => []

/-! ## Spec-side definitions (for the refinement claim about group selection) -/

/-- Follows the spec's words: a group is eligible when `force` is true, or
its size key parsed as an integer is at least `minsize` and the group has at
least `mindupe` paths. -/
def spec_eligible (P : Params) (size : String) (files : List Path) : Bool :=
  P.force || ((int16 size).any (fun n => decide (P.minsize ≤ n)) &&
    decide (P.mindupe ≤ files.length))

/-- Follows the spec's words: the index restricted to eligible groups. -/
def spec_selected_groups (P : Params) (gwaks : Gwaks) : Gwaks :=
  gwaks.map (fun sg => (sg.1, sg.2.filter (fun hf => spec_eligible P sg.1 hf.2)))

/-! ## Reasoning infrastructure -/

@[simp] theorem run_pure {α : Type} (a : α) (s : FS) :
    (pure a : GwakM α).run s = .ok a s := rfl

@[simp] theorem run_bind {α β : Type} (x : GwakM α) (f : α → GwakM β) (s : FS) :
    (x >>= f).run s =
      match x.run s with
      | .ok a s2 => (f a).run s2
      | .error e s2 => .error e s2 := by
  show EStateM.bind x f s = _
  unfold EStateM.bind
  cases hx : x s with
  | ok a s2 =>
      rw [show x.run s = EStateM.Result.ok a s2 from hx]
      rfl
  | error e s2 =>
      rw [show x.run s = EStateM.Result.error e s2 from hx]

@[simp] theorem run_getFS (s : FS) : getFS.run s = .ok s s := rfl

@[simp] theorem run_setFS (fs s : FS) : (setFS fs).run s = .ok ⟨⟩ fs := rfl

@[simp] theorem run_throwErr {α : Type} (e : Err) (s : FS) :
    (throwErr (α := α) e).run s = .error e s := rfl

@[simp] theorem run_map {α β : Type} (g : α → β) (x : GwakM α) (s : FS) :
    (g <$> x).run s =
      match x.run s with
      | .ok a s2 => .ok (g a) s2
      | .error e s2 => .error e s2 := by
  show EStateM.map g x s = _
  unfold EStateM.map
  cases hx : x s with
  | ok a s2 =>
      rw [show x.run s = EStateM.Result.ok a s2 from hx]
  | error e s2 =>
      rw [show x.run s = EStateM.Result.error e s2 from hx]

@[simp] theorem get_nil (p : Path) : FS.get [] p = none := rfl

@[simp] theorem get_cons (q : Path) (n : Node) (fs : FS) (p : Path) :
    FS.get ((q, n) :: fs) p = if q = p then some n else FS.get fs p := rfl

@[simp] theorem del_nil (p : Path) : FS.del [] p = [] := rfl

@[simp] theorem del_cons (q : Path) (n : Node) (fs : FS) (p : Path) :
    FS.del ((q, n) :: fs) p =
      if q = p then FS.del fs p else (q, n) :: FS.del fs p := rfl

theorem get_del_self (fs : FS) (p : Path) : FS.get (FS.del fs p) p = none := by
  induction fs with
  | nil => rfl
  | cons e t ih =>
      obtain ⟨q, n⟩ := e
      by_cases h : q = p <;> simp [h, ih]

theorem get_del_ne (fs : FS) {q p : Path} (h : q ≠ p) :
    FS.get (FS.del fs q) p = FS.get fs p := by
  induction fs with
  | nil => rfl
  | cons e t ih =>
      obtain ⟨r, n⟩ := e
      by_cases hr : r = q
      · subst hr
        simp [h, ih]
      · simp [hr, ih]

@[simp] theorem get_set_self (fs : FS) (p : Path) (n : Node) :
    FS.get (FS.set fs p n) p = some n := by simp [FS.set]

theorem get_set_ne (fs : FS) {q p : Path} (n : Node) (h : q ≠ p) :
    FS.get (FS.set fs q n) p = FS.get fs p := by
  simp [FS.set, h, get_del_ne fs h]

/-! Parsing `'{:016x}'` output: `int(format_size(b), 16)` recovers the
length, which makes the size key injective in the recorded length. -/

theorem hexVal_hexChar {d : Nat} (h : d < 16) : hexVal (hexChar d) = some d := by
  revert d
  decide

theorem foldl_int16Step_map (L : List Nat) (h : ∀ d ∈ L, d < 16) :
    ∀ a : Nat, (L.map hexChar).foldl int16Step (some a) =
      some (L.foldl (fun x d => 16 * x + d) a) := by
  induction L with
  | nil => intro a; rfl
  | cons d L ih =>
      intro a
      have hd : hexVal (hexChar d) = some d := hexVal_hexChar (h d (by simp))
      simp only [List.map_cons, List.foldl_cons]
      rw [show int16Step (some a) (hexChar d) = some (16 * a + d) by
        simp [int16Step, hd]]
      exact ih (fun x hx => h x (by simp [hx])) _

theorem foldr_horner (L : List Nat) :
    L.foldr (fun d a => 16 * a + d) 0 = Nat.ofDigits 16 L := by
  induction L with
  | nil => rfl
  | cons d L ih =>
      simp only [List.foldr_cons, Nat.ofDigits_cons, ih]
      omega

theorem ofDigits_replicate_zero (k : Nat) :
    Nat.ofDigits 16 (List.replicate k 0) = 0 := by
  induction k with
  | zero => rfl
  | succ k ih => simp [List.replicate_succ, Nat.ofDigits_cons, ih]

theorem int16_format_size_of_len (n : Nat) :
    int16 (format_size_of_len n) = some n := by
  have hdig : ∀ d ∈ Nat.digits 16 n ++ List.replicate (16 - (Nat.digits 16 n).length) 0,
      d < 16 := by
    intro d hd
    rcases List.mem_append.mp hd with hd | hd
    · exact Nat.digits_lt_base (by norm_num) hd
    · simp [List.eq_of_mem_replicate hd]
  have hlen : (Nat.digits 16 n ++ List.replicate (16 - (Nat.digits 16 n).length) 0).length
      ≥ 16 := by
    simp only [List.length_append, List.length_replicate]
    omega
  unfold int16 format_size_of_len
  have hdata : (String.mk (((Nat.digits 16 n ++
      List.replicate (16 - (Nat.digits 16 n).length) 0).reverse).map hexChar)).data =
      ((Nat.digits 16 n ++
        List.replicate (16 - (Nat.digits 16 n).length) 0).reverse).map hexChar := rfl
  rw [hdata]
  have hne : (Nat.digits 16 n ++ List.replicate (16 - (Nat.digits 16 n).length) 0) ≠ [] := by
    intro h
    have h2 := congrArg List.length h
    simp only [List.length_append, List.length_replicate, List.length_nil] at h2
    omega
  rw [if_neg (by
    simp only [List.map_eq_nil_iff, List.reverse_eq_nil_iff]
    exact hne)]
  rw [foldl_int16Step_map _ (by
    intro d hd
    exact hdig d (List.mem_reverse.mp (by simpa using hd))) 0]
  rw [List.foldl_reverse, foldr_horner, Nat.ofDigits_append,
    ofDigits_replicate_zero, Nat.ofDigits_digits]
  simp

theorem format_size_of_len_inj {n m : Nat}
    (h : format_size_of_len n = format_size_of_len m) : n = m := by
  have h1 := int16_format_size_of_len n
  rw [h, int16_format_size_of_len m] at h1
  exact (Option.some.injEq _ _ ▸ h1).symm

/-- Two size keys agree exactly when the byte lengths agree. -/
theorem format_size_eq_iff {b1 b2 : List Nat} :
    format_size b1 = format_size b2 ↔ b1.length = b2.length := by
  constructor
  · exact fun h => format_size_of_len_inj h
  · intro h
    unfold format_size
    rw [h]

theorem resolveLinks_not_symlink {fs : FS} {p : Path} (fuel : Nat)
    (h : ∀ t, FS.get fs p ≠ some (.symlink t)) :
    resolveLinks fs (fuel + 1) p = some p := by
  unfold resolveLinks
  cases hg : FS.get fs p with
  | none => rfl
  | some n => cases n with
      | file b => rfl
      | dir => rfl
      | symlink t => exact absurd hg (h t)

theorem resolveLinks_file {fs : FS} {p : Path} {b : List Nat} (fuel : Nat)
    (h : FS.get fs p = some (.file b)) : resolveLinks fs (fuel + 1) p = some p :=
  resolveLinks_not_symlink fuel (by simp [h])

theorem resolveLinks_none {fs : FS} {p : Path} (fuel : Nat)
    (h : FS.get fs p = none) : resolveLinks fs (fuel + 1) p = some p :=
  resolveLinks_not_symlink fuel (by simp [h])

theorem statNode_not_symlink {fs : FS} {p : Path}
    (h : ∀ t, FS.get fs p ≠ some (.symlink t)) : FS.statNode fs p = FS.get fs p := by
  unfold FS.statNode
  rw [show (41 : Nat) = 40 + 1 from rfl, resolveLinks_not_symlink 40 h]
  rfl

theorem statNode_file {fs : FS} {p : Path} {b : List Nat}
    (h : FS.get fs p = some (.file b)) : FS.statNode fs p = some (.file b) := by
  rw [statNode_not_symlink (by simp [h]), h]

theorem statNode_dir {fs : FS} {p : Path}
    (h : FS.get fs p = some .dir) : FS.statNode fs p = some .dir := by
  rw [statNode_not_symlink (by simp [h]), h]

theorem statNode_none {fs : FS} {p : Path}
    (h : FS.get fs p = none) : FS.statNode fs p = none := by
  rw [statNode_not_symlink (by simp [h]), h]

/-- One-step symlink: the link's target bears no further symlink. -/
theorem statNode_symlink {fs : FS} {p : Path} {t : SymTarget}
    (h : FS.get fs p = some (.symlink t))
    (h2 : ∀ u, FS.get fs (targetPath p.dropLast t) ≠ some (.symlink u)) :
    FS.statNode fs p = FS.get fs (targetPath p.dropLast t) := by
  unfold FS.statNode
  rw [show (41 : Nat) = 40 + 1 from rfl]
  unfold resolveLinks
  rw [h]
  show (resolveLinks fs 40 (targetPath p.dropLast t)).bind fs.get = _
  rw [show (40 : Nat) = 39 + 1 from rfl, resolveLinks_not_symlink 39 h2]
  rfl

theorem isFile_file {fs : FS} {p : Path} {b : List Nat}
    (h : FS.get fs p = some (.file b)) : FS.isFile fs p = true := by
  simp [FS.isFile, statNode_file h]

theorem isFile_none {fs : FS} {p : Path}
    (h : FS.get fs p = none) : FS.isFile fs p = false := by
  simp [FS.isFile, statNode_none h]

theorem isFile_dir {fs : FS} {p : Path}
    (h : FS.get fs p = some .dir) : FS.isFile fs p = false := by
  simp [FS.isFile, statNode_dir h]

theorem isDir_dir {fs : FS} {p : Path}
    (h : FS.get fs p = some .dir) : FS.isDir fs p = true := by
  simp [FS.isDir, statNode_dir h]

theorem isDir_none {fs : FS} {p : Path}
    (h : FS.get fs p = none) : FS.isDir fs p = false := by
  simp [FS.isDir, statNode_none h]

theorem isDir_file {fs : FS} {p : Path} {b : List Nat}
    (h : FS.get fs p = some (.file b)) : FS.isDir fs p = false := by
  simp [FS.isDir, statNode_file h]

/-! Step lemmas for the filesystem primitives. -/

theorem unlinkM_run {fs : FS} {p : Path} {n : Node}
    (h : FS.get fs p = some n) (hn : n ≠ .dir) :
    (unlinkM p).run fs = .ok ⟨⟩ (FS.del fs p) := by
  cases n with
  | file b => simp [unlinkM, h]
  | symlink t => simp [unlinkM, h]
  | dir => exact absurd rfl hn

theorem unlinkM_run_missing {fs : FS} {p : Path} (h : FS.get fs p = none) :
    (unlinkM p).run fs = .error (.fileNotFound p) fs := by
  simp [unlinkM, h]

theorem renameM_run {fs : FS} {src dst : Path} {n : Node}
    (h : FS.get fs src = some n) (hdst : FS.get fs dst ≠ some .dir) :
    (renameM src dst).run fs = .ok ⟨⟩ (FS.set (FS.del fs src) dst n) := by
  cases hd : FS.get fs dst with
  | none => cases n <;> simp [renameM, h, hd]
  | some m =>
      cases m with
      | file b => cases n <;> simp [renameM, h, hd]
      | symlink t => cases n <;> simp [renameM, h, hd]
      | dir => exact absurd hd hdst

theorem symlinkToM_run {fs : FS} {p : Path} (t : SymTarget)
    (h : FS.get fs p = none) :
    (symlinkToM p t).run fs = .ok ⟨⟩ (FS.set fs p (.symlink t)) := by
  simp [symlinkToM, h]

theorem readBytesM_run {fs : FS} {p : Path} {b : List Nat}
    (h : FS.get fs p = some (.file b)) :
    (readBytesM p).run fs = .ok b fs := by
  simp [readBytesM]
  rw [show (41 : Nat) = 40 + 1 from rfl, resolveLinks_file 40 h]
  simp [h]

theorem writeFileM_run_fresh {fs : FS} {p : Path} (bytes : List Nat)
    (h : FS.get fs p = none) :
    (writeFileM p bytes).run fs = .ok ⟨⟩ (FS.set fs p (.file bytes)) := by
  simp [writeFileM]
  rw [show (41 : Nat) = 40 + 1 from rfl, resolveLinks_none 40 h]
  simp [h]

theorem sameFile_of_ne {fs : FS} {p q : Path}
    (hp : ∀ t, FS.get fs p ≠ some (.symlink t))
    (hq : ∀ t, FS.get fs q ≠ some (.symlink t)) (hne : p ≠ q) :
    FS.sameFile fs p q = false := by
  unfold FS.sameFile
  rw [show (41 : Nat) = 40 + 1 from rfl, resolveLinks_not_symlink 40 hp,
    resolveLinks_not_symlink 40 hq]
  simp [hne]

/-- `copyfile` from a plain source file onto a currently absent target. -/
theorem copyfileM_run {fs : FS} {src dst : Path} {b : List Nat}
    (hsrc : FS.get fs src = some (.file b)) (hdst : FS.get fs dst = none)
    (hne : src ≠ dst) :
    (copyfileM src dst).run fs = .ok ⟨⟩ (FS.set fs dst (.file b)) := by
  have hsame : FS.sameFile fs src dst = false :=
    sameFile_of_ne (by simp [hsrc]) (by simp [hdst]) hne
  simp [copyfileM, hsame, readBytesM_run hsrc, writeFileM_run_fresh b hdst]

theorem mkdirOne_run_new {fs : FS} {q : Path} (h : FS.get fs q = none) :
    (mkdirOne q).run fs = .ok ⟨⟩ (FS.set fs q .dir) := by
  simp [mkdirOne, h]

theorem mkdirOne_run_dir {fs : FS} {q : Path} (h : FS.get fs q = some .dir) :
    (mkdirOne q).run fs = .ok ⟨⟩ fs := by
  simp [mkdirOne, h]

/-- The state after `mkdir -p` has visited the given prefixes. -/
def mkdirFold (fs : FS) (qs : List Path) : FS :=
  qs.foldl (fun fs q => if FS.get fs q = none then FS.set fs q .dir else fs) fs

theorem mkdirList_run (qs : List Path) (fs : FS)
    (h : ∀ q ∈ qs, FS.get fs q = none ∨ FS.get fs q = some .dir) :
    (mkdirList qs).run fs = .ok ⟨⟩ (mkdirFold fs qs) := by
  induction qs generalizing fs with
  | nil => rfl
  | cons q qs ih =>
      have hq := h q (by simp)
      have hrest : ∀ r ∈ qs,
          FS.get (if FS.get fs q = none then FS.set fs q .dir else fs) r = none ∨
          FS.get (if FS.get fs q = none then FS.set fs q .dir else fs) r = some .dir := by
        intro r hr
        by_cases hqr : q = r
        · subst hqr
          rcases hq with h0 | h0 <;> simp [h0]
        · rcases hq with h0 | h0 <;> simp [h0, get_set_ne fs _ hqr, h r (by simp [hr])]
      rcases hq with h0 | h0
      · simp [mkdirList, mkdirOne_run_new h0, mkdirFold, h0]
        have := ih (FS.set fs q .dir) (by simpa [h0] using hrest)
        simpa [mkdirFold] using this
      · simp [mkdirList, mkdirOne_run_dir h0, mkdirFold, h0]
        have := ih fs (by simpa [h0] using hrest)
        simpa [mkdirFold] using this

theorem mkdirFold_cons (fs : FS) (q : Path) (qs : List Path) :
    mkdirFold fs (q :: qs) =
      mkdirFold (if FS.get fs q = none then FS.set fs q .dir else fs) qs := rfl

theorem get_mkdirFold_notMem (qs : List Path) (fs : FS) {p : Path} (h : p ∉ qs) :
    FS.get (mkdirFold fs qs) p = FS.get fs p := by
  induction qs generalizing fs with
  | nil => rfl
  | cons q qs ih =>
      have hqp : q ≠ p := fun e => h (e ▸ List.mem_cons_self q qs)
      have hp : p ∉ qs := fun e => h (List.mem_cons_of_mem q e)
      rw [mkdirFold_cons]
      by_cases h0 : FS.get fs q = none
      · rw [if_pos h0, ih _ hp, get_set_ne fs _ hqp]
      · rw [if_neg h0, ih _ hp]

theorem get_mkdirFold_mem (qs : List Path) (fs : FS)
    (h : ∀ q ∈ qs, FS.get fs q = none ∨ FS.get fs q = some .dir) {p : Path}
    (hp : p ∈ qs) : FS.get (mkdirFold fs qs) p = some .dir := by
  induction qs generalizing fs with
  | nil => cases hp
  | cons q qs ih =>
      rw [mkdirFold_cons]
      have hnext : ∀ r ∈ qs,
          FS.get (if FS.get fs q = none then FS.set fs q .dir else fs) r = none ∨
          FS.get (if FS.get fs q = none then FS.set fs q .dir else fs) r = some .dir := by
        intro r hr
        by_cases hqr : q = r
        · subst hqr
          rcases h q (by simp) with h0 | h0 <;> simp [h0]
        · by_cases h0 : FS.get fs q = none <;>
            simp [h0, get_set_ne fs _ hqr, h r (by simp [hr])]
      rcases List.mem_cons.mp hp with rfl | hmem
      · by_cases hq : p ∈ qs
        · exact ih _ hnext hq
        · have hbase : FS.get (if FS.get fs p = none then FS.set fs p .dir else fs) p
              = some .dir := by
            rcases h p (by simp) with h0 | h0 <;> simp [h0]
          rw [get_mkdirFold_notMem qs _ hq, hbase]
      · exact ih _ hnext hmem

theorem mkdirFold_all_dir (qs : List Path) (fs : FS)
    (h : ∀ q ∈ qs, FS.get fs q = some .dir) : mkdirFold fs qs = fs := by
  induction qs with
  | nil => rfl
  | cons q qs ih =>
      rw [mkdirFold_cons, if_neg (by simp [h q (by simp)])]
      exact ih (fun r hr => h r (by simp [hr]))

theorem mkdirParentsM_run (p : Path) (fs : FS)
    (h : ∀ q ∈ prefixesOf p, FS.get fs q = none ∨ FS.get fs q = some .dir) :
    (mkdirParentsM p).run fs = .ok ⟨⟩ (mkdirFold fs (prefixesOf p)) :=
  mkdirList_run _ _ h

theorem length_le_of_mem_prefixesOf {q p : Path} (h : q ∈ prefixesOf p) :
    q.length ≤ p.length := by
  simp only [prefixesOf, List.mem_map, List.mem_range] at h
  obtain ⟨i, _, rfl⟩ := h
  simp [List.length_take_le (i + 1) p]

theorem bodyPath_notMem_prefixes (P : Params) (size hash : String) :
    bodyPath P size hash ∉ prefixesOf (bodyDirname P size) := by
  intro h
  have := length_le_of_mem_prefixesOf h
  simp [bodyPath] at this

/-! Projections of a run result. -/

def resOut {α : Type} : EStateM.Result Err FS α → Option α
  | .ok a _ => some a
  | .error _ _ => none

def resFS {α : Type} : EStateM.Result Err FS α → FS
  | .ok _ s => s
  | .error _ s => s

def resErr {α : Type} : EStateM.Result Err FS α → Option Err
  | .ok _ _ => none
  | .error e _ => some e

@[simp] theorem resOut_ok {α : Type} (a : α) (s : FS) :
    resOut (.ok a s) = some a := rfl

@[simp] theorem resOut_error {α : Type} (e : Err) (s : FS) :
    resOut (α := α) (.error e s) = none := rfl

@[simp] theorem resFS_ok {α : Type} (a : α) (s : FS) : resFS (.ok a s) = s := rfl

@[simp] theorem resFS_error {α : Type} (e : Err) (s : FS) :
    resFS (α := α) (.error e s) = s := rfl

@[simp] theorem resErr_ok {α : Type} (a : α) (s : FS) : resErr (.ok a s) = none := rfl

@[simp] theorem resErr_error {α : Type} (e : Err) (s : FS) :
    resErr (α := α) (.error e s) = some e := rfl

theorem eq_ok_of_resOut {α : Type} {R : EStateM.Result Err FS α} {v : α}
    (h : resOut R = some v) : R = .ok v (resFS R) := by
  cases R with
  | ok a s => cases h; rfl
  | error e s => cases h

/-! Step lemmas for `_bury`. -/

theorem bury_run_dry (P : Params) (hdry : P.dry_run = true) (size hash : String)
    (f : Path) (fs : FS) :
    (bury P size hash f).run fs =
      .ok { link := renderTarget (buryLink P size hash f), body := renderPath f } fs := by
  simp [bury, hdry]

/-- The rename branch: the body does not exist yet, so `file` is moved there
and replaced by a link. -/
theorem bury_run_rename (P : Params) (hdry : P.dry_run = false) (size hash : String)
    (f : Path) (fs fs1 : FS) (n : Node)
    (hmk : (mkdirParentsM (bodyDirname P size)).run fs = .ok ⟨⟩ fs1)
    (hNotFile : FS.isFile fs1 (bodyPath P size hash) = false)
    (hsrc : FS.get fs1 f = some n)
    (hdstNotDir : FS.get fs1 (bodyPath P size hash) ≠ some .dir)
    (hne : f ≠ bodyPath P size hash) :
    (bury P size hash f).run fs =
      .ok { link := renderTarget (buryLink P size hash f), body := renderPath f }
        (FS.set (FS.set (FS.del fs1 f) (bodyPath P size hash) n) f
          (.symlink (buryLink P size hash f))) := by
  have hsym : FS.get (FS.set (FS.del fs1 f) (bodyPath P size hash) n) f = none := by
    rw [get_set_ne _ _ (Ne.symm hne), get_del_self]
  simp [bury, hdry, hmk, hNotFile, renameM_run hsrc hdstNotDir, symlinkToM_run _ hsym]

/-- The unlink branch: the body already exists as a file, so `file` is
deleted and replaced by a link. -/
theorem bury_run_unlink (P : Params) (hdry : P.dry_run = false) (size hash : String)
    (f : Path) (fs fs1 : FS) (n : Node)
    (hmk : (mkdirParentsM (bodyDirname P size)).run fs = .ok ⟨⟩ fs1)
    (hIsFile : FS.isFile fs1 (bodyPath P size hash) = true)
    (hsrc : FS.get fs1 f = some n) (hn : n ≠ .dir) :
    (bury P size hash f).run fs =
      .ok { link := renderTarget (buryLink P size hash f), body := renderPath f }
        (FS.set (FS.del fs1 f) f (.symlink (buryLink P size hash f))) := by
  have hsym : FS.get (FS.del fs1 f) f = none := get_del_self _ _
  simp [bury, hdry, hmk, hIsFile, unlinkM_run hsrc hn, symlinkToM_run _ hsym]

/-- Burying a group whose body already exists: every member is unlinked and
replaced by a link, the body and everything else is untouched, and the
records are produced in path order. -/
theorem buryFiles_run_existing (P : Params) (hdry : P.dry_run = false)
    (size hash : String) (bf : Path → List Nat) (bb : List Nat) :
    ∀ (files : List Path) (fs : FS),
    files.Nodup →
    (∀ q ∈ prefixesOf (bodyDirname P size), FS.get fs q = some .dir) →
    FS.get fs (bodyPath P size hash) = some (.file bb) →
    (∀ f ∈ files, FS.get fs f = some (.file (bf f))) →
    (∀ f ∈ files, f ∉ prefixesOf (bodyDirname P size) ∧ f ≠ bodyPath P size hash) →
    resOut ((buryFiles P size hash files).run fs) =
      some (files.map (fun f =>
        { link := renderTarget (buryLink P size hash f), body := renderPath f })) ∧
    FS.get (resFS ((buryFiles P size hash files).run fs)) (bodyPath P size hash) =
      some (.file bb) ∧
    (∀ f ∈ files, FS.get (resFS ((buryFiles P size hash files).run fs)) f =
      some (.symlink (buryLink P size hash f))) ∧
    (∀ p, p ∉ files →
      FS.get (resFS ((buryFiles P size hash files).run fs)) p = FS.get fs p) := by
  intro files
  induction files with
  | nil =>
      intro fs _ _ hbody _ _
      refine ⟨rfl, ?_, ?_, ?_⟩ <;> simp [buryFiles, hbody]
  | cons f rest ih =>
      intro fs hnodup hpre hbody hfiles hdisj
      have hfne : f ≠ bodyPath P size hash := (hdisj f (by simp)).2
      have hmk : (mkdirParentsM (bodyDirname P size)).run fs = .ok ⟨⟩ fs := by
        rw [mkdirParentsM_run _ _ (fun q hq => Or.inr (hpre q hq)),
          mkdirFold_all_dir _ _ hpre]
      have hIsFile : FS.isFile fs (bodyPath P size hash) = true := isFile_file hbody
      have hstep := bury_run_unlink P hdry size hash f fs fs _ hmk hIsFile
        (hfiles f (by simp)) (by simp)
      set fs2 := FS.set (FS.del fs f) f (.symlink (buryLink P size hash f)) with hfs2
      have hget2 : ∀ p, p ≠ f → FS.get fs2 p = FS.get fs p := by
        intro p hp
        rw [hfs2, get_set_ne _ _ (Ne.symm hp), get_del_ne _ (Ne.symm hp)]
      have hrest := ih fs2 (List.nodup_cons.mp hnodup).2
        (fun q hq => by
          rw [hget2 q (fun e => (hdisj f (by simp)).1 (e ▸ hq))]
          exact hpre q hq)
        (by rw [hget2 _ (Ne.symm hfne)]; exact hbody)
        (fun g hg => by
          rw [hget2 g (fun e => (List.nodup_cons.mp hnodup).1 (e ▸ hg))]
          exact hfiles g (by simp [hg]))
        (fun g hg => hdisj g (by simp [hg]))
      obtain ⟨hout, hbody3, hlinks3, hframe3⟩ := hrest
      have hfnotrest : f ∉ rest := (List.nodup_cons.mp hnodup).1
      cases hR : (buryFiles P size hash rest).run fs2 with
      | error e s =>
          rw [hR] at hout
          cases hout
      | ok v fs3 =>
          rw [hR] at hout hbody3 hlinks3 hframe3
          simp only [resOut_ok, Option.some.injEq] at hout
          subst hout
          have hrun : (buryFiles P size hash (f :: rest)).run fs =
              .ok ({ link := renderTarget (buryLink P size hash f), body := renderPath f } ::
                  rest.map (fun g =>
                    { link := renderTarget (buryLink P size hash g), body := renderPath g }))
                fs3 := by
            simp [buryFiles, hstep, hR]
          refine ⟨by simp [hrun], ?_, ?_, ?_⟩
          · have hb := hbody3
            simp only [resFS_ok] at hb
            simp [hrun, hb]
          · intro g hg
            rcases List.mem_cons.mp hg with rfl | hg2
            · rw [hrun]
              simp only [resFS_ok]
              have := hframe3 g hfnotrest
              simp only [resFS_ok] at this
              rw [this, hfs2, get_set_self]
            · have := hlinks3 g hg2
              simp only [resFS_ok] at this
              simp [hrun, this]
          · intro p hp
            rw [hrun]
            simp only [resFS_ok]
            have h1 := hframe3 p (fun e => hp (by simp [e]))
            simp only [resFS_ok] at h1
            rw [h1, hget2 p (fun e => hp (by simp [e]))]

/-- Burying a group whose body does not exist yet: the first path is renamed
to the body (so the body ends with the first path's bytes), every member of
the group ends as a link, and everything else is untouched apart from the
store directories created by `mkdir`. -/
theorem buryFiles_run_fresh (P : Params) (hdry : P.dry_run = false)
    (size hash : String) (bf : Path → List Nat)
    (f0 : Path) (rest : List Path) (fs : FS)
    (hnodup : (f0 :: rest).Nodup)
    (hpre : ∀ q ∈ prefixesOf (bodyDirname P size),
      FS.get fs q = none ∨ FS.get fs q = some .dir)
    (hbody : FS.get fs (bodyPath P size hash) = none)
    (hfiles : ∀ f ∈ f0 :: rest, FS.get fs f = some (.file (bf f)))
    (hdisj : ∀ f ∈ f0 :: rest,
      f ∉ prefixesOf (bodyDirname P size) ∧ f ≠ bodyPath P size hash) :
    resOut ((buryFiles P size hash (f0 :: rest)).run fs) =
      some ((f0 :: rest).map (fun f =>
        { link := renderTarget (buryLink P size hash f), body := renderPath f })) ∧
    FS.get (resFS ((buryFiles P size hash (f0 :: rest)).run fs)) (bodyPath P size hash) =
      some (.file (bf f0)) ∧
    (∀ f ∈ f0 :: rest, FS.get (resFS ((buryFiles P size hash (f0 :: rest)).run fs)) f =
      some (.symlink (buryLink P size hash f))) ∧
    (∀ p, p ∉ f0 :: rest → p ≠ bodyPath P size hash →
      p ∉ prefixesOf (bodyDirname P size) →
      FS.get (resFS ((buryFiles P size hash (f0 :: rest)).run fs)) p = FS.get fs p) := by
  have hbody_nopre := bodyPath_notMem_prefixes P size hash
  have hmk : (mkdirParentsM (bodyDirname P size)).run fs =
      .ok ⟨⟩ (mkdirFold fs (prefixesOf (bodyDirname P size))) := mkdirParentsM_run _ _ hpre
  set fs1 := mkdirFold fs (prefixesOf (bodyDirname P size)) with hfs1
  have hget1 : ∀ p, p ∉ prefixesOf (bodyDirname P size) → FS.get fs1 p = FS.get fs p :=
    fun p hp => get_mkdirFold_notMem _ _ hp
  have hpre1 : ∀ q ∈ prefixesOf (bodyDirname P size), FS.get fs1 q = some .dir :=
    fun q hq => get_mkdirFold_mem _ _ hpre hq
  have hbody1 : FS.get fs1 (bodyPath P size hash) = none := by
    rw [hget1 _ hbody_nopre]; exact hbody
  have hf0 : FS.get fs1 f0 = some (.file (bf f0)) := by
    rw [hget1 _ (hdisj f0 (by simp)).1]; exact hfiles f0 (by simp)
  have hstep := bury_run_rename P hdry size hash f0 fs fs1 _ hmk
    (isFile_none hbody1) hf0 (by simp [hbody1]) (hdisj f0 (by simp)).2
  set fs2 := FS.set (FS.set (FS.del fs1 f0) (bodyPath P size hash) (.file (bf f0))) f0
    (.symlink (buryLink P size hash f0)) with hfs2
  have hget2 : ∀ p, p ≠ f0 → p ≠ bodyPath P size hash → FS.get fs2 p = FS.get fs1 p := by
    intro p h1 h2
    rw [hfs2, get_set_ne _ _ (Ne.symm h1), get_set_ne _ _ (Ne.symm h2),
      get_del_ne _ (Ne.symm h1)]
  have hbody2 : FS.get fs2 (bodyPath P size hash) = some (.file (bf f0)) := by
    rw [hfs2, get_set_ne _ _ (hdisj f0 (by simp)).2, get_set_self]
  have hrest := buryFiles_run_existing P hdry size hash bf (bf f0) rest fs2
    (List.nodup_cons.mp hnodup).2
    (fun q hq => by
      rw [hget2 q (fun e => (hdisj f0 (by simp)).1 (e ▸ hq))
        (fun e => hbody_nopre (e ▸ hq))]
      exact hpre1 q hq)
    hbody2
    (fun g hg => by
      rw [hget2 g (fun e => (List.nodup_cons.mp hnodup).1 (e ▸ hg))
        (fun e => (hdisj g (by simp [hg])).2 e)]
      rw [hget1 g (hdisj g (by simp [hg])).1]
      exact hfiles g (by simp [hg]))
    (fun g hg => hdisj g (by simp [hg]))
  obtain ⟨hout, hbody3, hlinks3, hframe3⟩ := hrest
  have hfnotrest : f0 ∉ rest := (List.nodup_cons.mp hnodup).1
  cases hR : (buryFiles P size hash rest).run fs2 with
  | error e s =>
      rw [hR] at hout
      cases hout
  | ok v fs3 =>
      rw [hR] at hout hbody3 hlinks3 hframe3
      simp only [resOut_ok, Option.some.injEq] at hout
      subst hout
      simp only [resFS_ok] at hbody3 hlinks3 hframe3
      have hrun : (buryFiles P size hash (f0 :: rest)).run fs =
          .ok ({ link := renderTarget (buryLink P size hash f0), body := renderPath f0 } ::
              rest.map (fun g =>
                { link := renderTarget (buryLink P size hash g), body := renderPath g }))
            fs3 := by
        simp [buryFiles, hstep, hR]
      refine ⟨by simp [hrun], by simp [hrun, hbody3], ?_, ?_⟩
      · intro g hg
        rcases List.mem_cons.mp hg with rfl | hg2
        · rw [hrun]
          simp only [resFS_ok]
          rw [hframe3 g hfnotrest, hfs2, get_set_self]
        · simp [hrun, hlinks3 g hg2]
      · intro p hp hpb hppre
        rw [hrun]
        simp only [resFS_ok]
        rw [hframe3 p (fun e => hp (by simp [e])),
          hget2 p (fun e => hp (by simp [e])) hpb, hget1 p hppre]

/-! Inversion of a successful bind. -/

theorem bind_run_ok {α β : Type} {x : GwakM α} {f : α → GwakM β} {s : FS}
    {b : β} {s2 : FS} (h : (x >>= f).run s = .ok b s2) :
    ∃ a s1, x.run s = .ok a s1 ∧ (f a).run s1 = .ok b s2 := by
  rw [run_bind] at h
  cases hx : x.run s with
  | ok a s1 =>
      rw [hx] at h
      exact ⟨a, s1, rfl, h⟩
  | error e s1 =>
      rw [hx] at h
      simp at h

/-! Step lemmas for `_rmdir`. -/

theorem rmdirM_run_skip (P : Params) {fs : FS} {p : Path}
    (h : FS.isDir fs p = false ∨ FS.hasChild fs ((resolveLinks fs 41 p).getD p) = true) :
    (rmdirM P p).run fs = .ok false fs := by
  rcases h with h | h <;> simp [rmdirM, h]

theorem rmdirM_run_dir (P : Params) (hdry : P.dry_run = false) {fs : FS} {p : Path}
    (hdir : FS.get fs p = some .dir) (hnoch : FS.hasChild fs p = false) :
    (rmdirM P p).run fs = .ok true (FS.del fs p) := by
  have hres : resolveLinks fs 41 p = some p :=
    resolveLinks_not_symlink 40 (by simp [hdir])
  simp [rmdirM, hres, isDir_dir hdir, hnoch, hdry, hdir]

theorem rmdirM_run_dry (P : Params) (hdry : P.dry_run = true) {fs : FS} {p : Path} :
    (rmdirM P p).run fs =
      .ok (FS.isDir fs p && !FS.hasChild fs ((resolveLinks fs 41 p).getD p)) fs := by
  cases hc : FS.isDir fs p <;>
    cases hn : FS.hasChild fs ((resolveLinks fs 41 p).getD p) <;>
    simp [rmdirM, hdry, hc, hn]

/-! Step lemmas for `_exhume`. -/

/-- Restoring a whole group: every link path ends as a regular file holding
the body's bytes, and nothing else changes. -/
theorem exhumeLinks_run (P : Params) (hdry : P.dry_run = false)
    (file : Path) (bb : List Nat) (nf : Path → Node) :
    ∀ (links : List Path) (fs : FS),
    links.Nodup →
    FS.get fs file = some (.file bb) →
    (∀ l ∈ links, FS.get fs l = some (nf l) ∧ nf l ≠ .dir) →
    (∀ l ∈ links, l ≠ file) →
    resOut ((exhumeLinks P file links).run fs) = some ⟨⟩ ∧
    (∀ l ∈ links, FS.get (resFS ((exhumeLinks P file links).run fs)) l =
      some (.file bb)) ∧
    (∀ p, p ∉ links →
      FS.get (resFS ((exhumeLinks P file links).run fs)) p = FS.get fs p) := by
  intro links
  induction links with
  | nil =>
      intro fs _ _ _ _
      exact ⟨rfl, by simp, fun p _ => by simp [exhumeLinks]⟩
  | cons l ls ih =>
      intro fs hnodup hbody hl hne
      have hun : (unlinkM l).run fs = .ok ⟨⟩ (FS.del fs l) :=
        unlinkM_run (hl l (by simp)).1 (hl l (by simp)).2
      have hb1 : FS.get (FS.del fs l) file = some (.file bb) := by
        rw [get_del_ne _ (hne l (by simp))]; exact hbody
      have hcp : (copyfileM file l).run (FS.del fs l) =
          .ok ⟨⟩ (FS.set (FS.del fs l) l (.file bb)) :=
        copyfileM_run hb1 (get_del_self _ _) (Ne.symm (hne l (by simp)))
      set fs2 := FS.set (FS.del fs l) l (.file bb) with hfs2
      have hget2 : ∀ p, p ≠ l → FS.get fs2 p = FS.get fs p := by
        intro p hp
        rw [hfs2, get_set_ne _ _ (Ne.symm hp), get_del_ne _ (Ne.symm hp)]
      have hrest := ih fs2 (List.nodup_cons.mp hnodup).2
        (by rw [hget2 file (Ne.symm (hne l (by simp)))]; exact hbody)
        (fun g hg => by
          rw [hget2 g (fun e => (List.nodup_cons.mp hnodup).1 (e ▸ hg))]
          exact hl g (by simp [hg]))
        (fun g hg => hne g (by simp [hg]))
      obtain ⟨hout, hlinks3, hframe3⟩ := hrest
      cases hR : (exhumeLinks P file ls).run fs2 with
      | error e s =>
          rw [hR] at hout
          cases hout
      | ok v fs3 =>
          rw [hR] at hlinks3 hframe3
          simp only [resFS_ok] at hlinks3 hframe3
          have hrun : (exhumeLinks P file (l :: ls)).run fs = .ok v fs3 := by
            simp [exhumeLinks, hdry, hun, hcp, hR]
          refine ⟨by simp [hrun], ?_, ?_⟩
          · intro g hg
            rcases List.mem_cons.mp hg with rfl | hg2
            · rw [hrun]
              simp only [resFS_ok]
              rw [hframe3 g (List.nodup_cons.mp hnodup).1, hfs2, get_set_self]
            · simp [hrun, hlinks3 g hg2]
          · intro p hp
            rw [hrun]
            simp only [resFS_ok]
            rw [hframe3 p (fun e => hp (by simp [e])),
              hget2 p (fun e => hp (by simp [e]))]

/-- A successful `_exhume` always returns `True`. -/
theorem exhume_ok_true {P : Params} {file : Path} {links : List Path} {fs fs2 : FS}
    {b : Bool} (h : (exhume P file links).run fs = .ok b fs2) : b = true := by
  unfold exhume at h
  obtain ⟨a1, s1, h1, h⟩ := bind_run_ok h
  obtain ⟨a2, s2, h2, h⟩ := bind_run_ok h
  simp at h
  exact h.1

/-- `_exhume` without `force`: all links are restored from the body, the body
survives, everything else is untouched, and the result is `True`. -/
theorem exhume_run_noforce (P : Params) (hdry : P.dry_run = false)
    (hforce : P.force = false) (file : Path) (bb : List Nat) (nf : Path → Node)
    (links : List Path) (fs : FS)
    (hnodup : links.Nodup)
    (hbody : FS.get fs file = some (.file bb))
    (hl : ∀ l ∈ links, FS.get fs l = some (nf l) ∧ nf l ≠ .dir)
    (hne : ∀ l ∈ links, l ≠ file) :
    resOut ((exhume P file links).run fs) = some true ∧
    FS.get (resFS ((exhume P file links).run fs)) file = some (.file bb) ∧
    (∀ l ∈ links, FS.get (resFS ((exhume P file links).run fs)) l =
      some (.file bb)) ∧
    (∀ p, p ∉ links →
      FS.get (resFS ((exhume P file links).run fs)) p = FS.get fs p) := by
  obtain ⟨hout, hlinks, hframe⟩ :=
    exhumeLinks_run P hdry file bb nf links fs hnodup hbody hl hne
  cases hR : (exhumeLinks P file links).run fs with
  | error e s =>
      rw [hR] at hout
      cases hout
  | ok v fs3 =>
      rw [hR] at hlinks hframe
      simp only [resFS_ok] at hlinks hframe
      have hfile_not : file ∉ links := fun hmem => (hne file hmem) rfl
      have hrun : (exhume P file links).run fs = .ok true fs3 := by
        simp [exhume, hR, hforce]
      refine ⟨by simp [hrun], ?_, ?_, ?_⟩
      · rw [hrun]
        simp only [resFS_ok]
        rw [hframe file hfile_not]
        exact hbody
      · intro l hlm
        simp [hrun, hlinks l hlm]
      · intro p hp
        rw [hrun]
        simp only [resFS_ok]
        exact hframe p hp

/-- `_exhume` with `force`: all links are restored from the body, and only
then is the body deleted. -/
theorem exhume_run_force (P : Params) (hdry : P.dry_run = false)
    (hforce : P.force = true) (file : Path) (bb : List Nat) (nf : Path → Node)
    (links : List Path) (fs : FS)
    (hnodup : links.Nodup)
    (hbody : FS.get fs file = some (.file bb))
    (hl : ∀ l ∈ links, FS.get fs l = some (nf l) ∧ nf l ≠ .dir)
    (hne : ∀ l ∈ links, l ≠ file) :
    resOut ((exhume P file links).run fs) = some true ∧
    FS.get (resFS ((exhume P file links).run fs)) file = none ∧
    (∀ l ∈ links, FS.get (resFS ((exhume P file links).run fs)) l =
      some (.file bb)) ∧
    (∀ p, p ∉ links → p ≠ file →
      FS.get (resFS ((exhume P file links).run fs)) p = FS.get fs p) := by
  obtain ⟨hout, hlinks, hframe⟩ :=
    exhumeLinks_run P hdry file bb nf links fs hnodup hbody hl hne
  cases hR : (exhumeLinks P file links).run fs with
  | error e s =>
      rw [hR] at hout
      cases hout
  | ok v fs3 =>
      rw [hR] at hlinks hframe
      simp only [resFS_ok] at hlinks hframe
      have hfile_not : file ∉ links := fun hmem => (hne file hmem) rfl
      have hbody3 : FS.get fs3 file = some (.file bb) := by
        rw [hframe file hfile_not]; exact hbody
      have hrun : (exhume P file links).run fs = .ok true (FS.del fs3 file) := by
        simp [exhume, hR, hforce, hdry, unlinkM_run hbody3 (by simp)]
      refine ⟨by simp [hrun], ?_, ?_, ?_⟩
      · rw [hrun]
        simp only [resFS_ok]
        exact get_del_self _ _
      · intro l hlm
        rw [hrun]
        simp only [resFS_ok]
        rw [get_del_ne _ (Ne.symm (hne l hlm))]
        exact hlinks l hlm
      · intro p hp hpf
        rw [hrun]
        simp only [resFS_ok]
        rw [get_del_ne _ (Ne.symm hpf), hframe p hp]

/-! Per-group lemmas for `_redupe`. -/

theorem redupeHashes_run_nil (P : Params) (grave : Path) (size : String) (fs : FS) :
    (redupeHashes P grave size []).run fs = .ok [] fs := rfl

theorem redupeSizes_run_nil (P : Params) (grave : Path) (fs : FS) :
    (redupeSizes P grave []).run fs = .ok [] fs := rfl

/-- A fingerprint whose body is not a file is skipped entirely. -/
theorem redupeHashes_run_skip {P : Params} {grave : Path} {size hash : String}
    {links : List Path} {rest : List (String × List Path)} {fs : FS}
    (h : FS.isFile fs (grave ++ [size, hash]) = false) :
    (redupeHashes P grave size ((hash, links) :: rest)).run fs =
      (redupeHashes P grave size rest).run fs := by
  cases hR : (redupeHashes P grave size rest).run fs <;>
    simp [redupeHashes, h, hR]

theorem redupeHashes_ok_all (P : Params) (grave : Path) (size : String) :
    ∀ (l : List (String × List Path)) (fs : FS) (bs : List Bool) (fs2 : FS),
    (redupeHashes P grave size l).run fs = .ok bs fs2 → bs.all id = true := by
  intro l
  induction l with
  | nil =>
      intro fs bs fs2 h
      rw [redupeHashes_run_nil] at h
      cases h
      rfl
  | cons p rest ih =>
      obtain ⟨hash, links⟩ := p
      intro fs bs fs2 h
      obtain ⟨a0, s0, h0, h⟩ := bind_run_ok h
      rw [run_getFS] at h0
      cases h0
      obtain ⟨bs1, s1, h1, h⟩ := bind_run_ok h
      obtain ⟨bs2, s2, h2, h⟩ := bind_run_ok h
      rw [run_pure] at h
      cases h
      have hall2 := ih _ _ _ h2
      by_cases hc : FS.isFile fs (grave ++ [size, hash]) = true
      · rw [if_pos hc] at h1
        obtain ⟨b, sb, hb, h1⟩ := bind_run_ok h1
        obtain ⟨c, sc, hcR, h1⟩ := bind_run_ok h1
        rw [run_pure] at h1
        cases h1
        have hbtrue := exhume_ok_true hb
        subst hbtrue
        simp [List.all_append, hall2]
      · rw [if_neg hc] at h1
        rw [run_pure] at h1
        cases h1
        simpa [List.all_append] using hall2

theorem redupeSizes_ok_all (P : Params) (grave : Path) :
    ∀ (gwaks : Gwaks) (fs : FS) (bs : List Bool) (fs2 : FS),
    (redupeSizes P grave gwaks).run fs = .ok bs fs2 → bs.all id = true := by
  intro gwaks
  induction gwaks with
  | nil =>
      intro fs bs fs2 h
      rw [redupeSizes_run_nil] at h
      cases h
      rfl
  | cons p rest ih =>
      obtain ⟨size, gwak⟩ := p
      intro fs bs fs2 h
      obtain ⟨bs1, s1, h1, h⟩ := bind_run_ok h
      obtain ⟨c, sc, hcR, h⟩ := bind_run_ok h
      obtain ⟨bs2, s2, h2, h⟩ := bind_run_ok h
      rw [run_pure] at h
      cases h
      have hall1 := redupeHashes_ok_all P grave size _ _ _ _ h1
      have hall2 := ih _ _ _ h2
      simp [List.all_append, hall1, hall2]

/-! Skip lemmas for the validators. -/

theorem validateFilesInner_run_missing (size hash : String) :
    ∀ (files : List Path) (fs : FS), (∀ f ∈ files, FS.isFile fs f = false) →
    (validateFilesInner size hash files).run fs = .ok [] fs := by
  intro files
  induction files with
  | nil => intro fs _; rfl
  | cons f rest ih =>
      intro fs h
      simp [validateFilesInner, h f (by simp), ih fs (fun g hg => h g (by simp [hg]))]

theorem validateFilesHashes_run_missing (size : String) :
    ∀ (gwak : List (String × List Path)) (fs : FS),
    (∀ hf ∈ gwak, ∀ f ∈ hf.2, FS.isFile fs f = false) →
    (validateFilesHashes size gwak).run fs = .ok [] fs := by
  intro gwak
  induction gwak with
  | nil => intro fs _; rfl
  | cons hf rest ih =>
      intro fs h
      obtain ⟨hash, files⟩ := hf
      simp [validateFilesHashes,
        validateFilesInner_run_missing size hash files fs
          (fun f hfmem => h (hash, files) (by simp) f hfmem),
        ih fs (fun g hg => h g (by simp [hg]))]

theorem validateFilesSizes_run_missing :
    ∀ (gwaks : Gwaks) (fs : FS),
    (∀ sg ∈ gwaks, ∀ hf ∈ sg.2, ∀ f ∈ hf.2, FS.isFile fs f = false) →
    (validateFilesSizes gwaks).run fs = .ok [] fs := by
  intro gwaks
  induction gwaks with
  | nil => intro fs _; rfl
  | cons sg rest ih =>
      intro fs h
      obtain ⟨size, gwak⟩ := sg
      simp [validateFilesSizes,
        validateFilesHashes_run_missing size gwak fs
          (fun hf hhf => h (size, gwak) (by simp) hf hhf),
        ih fs (fun g hg => h g (by simp [hg]))]

theorem validateGraveHashes_run_missing (grave : Path) (size : String) :
    ∀ (gwak : List (String × List Path)) (fs : FS),
    (∀ hf ∈ gwak, FS.isFile fs (grave ++ [size, hf.1]) = false) →
    (validateGraveHashes grave size gwak).run fs = .ok [] fs := by
  intro gwak
  induction gwak with
  | nil => intro fs _; rfl
  | cons hf rest ih =>
      intro fs h
      obtain ⟨hash, files⟩ := hf
      simp [validateGraveHashes, h (hash, files) (by simp),
        ih fs (fun g hg => h g (by simp [hg]))]

theorem validateGraveSizes_run_missing (grave : Path) :
    ∀ (gwaks : Gwaks) (fs : FS),
    (∀ sg ∈ gwaks, ∀ hf ∈ sg.2, FS.isFile fs (grave ++ [sg.1, hf.1]) = false) →
    (validateGraveSizes grave gwaks).run fs = .ok [] fs := by
  intro gwaks
  induction gwaks with
  | nil => intro fs _; rfl
  | cons sg rest ih =>
      intro fs h
      obtain ⟨size, gwak⟩ := sg
      simp [validateGraveSizes,
        validateGraveHashes_run_missing grave size gwak fs
          (fun hf hhf => h (size, gwak) (by simp) hf hhf),
        ih fs (fun g hg => h g (by simp [hg]))]

/-! Force-independence of `_bury` (the flag is only read by the selection
guards and by exhume's deletion step). -/

theorem bury_force_indep (P : Params) (size hash : String) (f : Path) :
    bury { P with force := true } size hash f = bury P size hash f := rfl

theorem buryFiles_force_indep (P : Params) (size hash : String) :
    ∀ files : List Path,
    buryFiles { P with force := true } size hash files = buryFiles P size hash files
  | [] => rfl
  | f :: rest => by
      simp only [buryFiles, bury_force_indep, buryFiles_force_indep P size hash rest]

/-- The per-hash guard of `_dedupe` coincides with filtering by the spec's
eligibility predicate, provided the size-level guard did not fire (`force`,
or the size is not small). -/
theorem dedupeHashes_filter (P : Params) (size : String) (n : Nat)
    (hn : int16 size = some n) (hcase : P.force = true ∨ P.minsize ≤ n) :
    ∀ (gwak : List (String × List Path)) (fs : FS),
    (dedupeHashes P size gwak).run fs =
      (dedupeHashes { P with force := true } size
        (gwak.filter (fun hf => spec_eligible P size hf.2))).run fs := by
  intro gwak
  induction gwak with
  | nil => intro fs; rfl
  | cons hf rest ih =>
      obtain ⟨hash, files⟩ := hf
      intro fs
      by_cases hforce : P.force = true
      · have helig : spec_eligible P size files = true := by
          simp [spec_eligible, hforce]
        simp [dedupeHashes, List.filter_cons, helig, hforce, buryFiles_force_indep, ih]
      · have hforce2 : P.force = false := by
          cases hP : P.force
          · rfl
          · exact absurd hP hforce
        have hsz : P.minsize ≤ n := hcase.resolve_left hforce
        by_cases hlen : files.length < P.mindupe
        · have helig : spec_eligible P size files = false := by
            simp [spec_eligible, hforce2, hn, decide_eq_true_eq]
            omega
          simp [dedupeHashes, List.filter_cons, helig, hforce2, hlen, ih]
        · have helig : spec_eligible P size files = true := by
            simp [spec_eligible, hforce2, hn, decide_eq_true_eq]
            omega
          simp [dedupeHashes, List.filter_cons, helig, hforce2, hlen,
            buryFiles_force_indep, ih]

theorem spec_selected_groups_cons (P : Params) (sg : String × List (String × List Path))
    (rest : Gwaks) :
    spec_selected_groups P (sg :: rest) =
      (sg.1, sg.2.filter (fun hf => spec_eligible P sg.1 hf.2)) ::
        spec_selected_groups P rest := rfl

theorem dedupeSizes_filter (P : Params) :
    ∀ (gwaks : Gwaks) (fs : FS),
    (∀ sg ∈ gwaks, (int16 sg.1).isSome = true) →
    (dedupeSizes P gwaks).run fs =
      (dedupeSizes { P with force := true } (spec_selected_groups P gwaks)).run fs := by
  intro gwaks
  induction gwaks with
  | nil => intro fs _; rfl
  | cons sg rest ih =>
      obtain ⟨size, gwak⟩ := sg
      intro fs hparse
      obtain ⟨n, hn⟩ : ∃ n, int16 size = some n :=
        Option.isSome_iff_exists.mp (hparse (size, gwak) (by simp))
      have ihr : ∀ s : FS, (dedupeSizes P rest).run s =
          (dedupeSizes { P with force := true }
            (rest.map (fun sg =>
              (sg.1, sg.2.filter (fun hf => spec_eligible P sg.1 hf.2))))).run s :=
        fun s => ih s (fun sg hg => hparse sg (by simp [hg]))
      have hsmol : is_smol P size = some (decide (n < P.minsize)) := by
        simp [is_smol, hn]
      have hsmolT : is_smol { P with force := true } size =
          some (decide (n < P.minsize)) := by
        simp [is_smol, hn]
      by_cases hforce : P.force = true
      · simp [dedupeSizes, spec_selected_groups, hsmol, hsmolT, hforce,
          dedupeHashes_filter P size n hn (Or.inl hforce), ihr]
      · have hforce2 : P.force = false := by
          cases hP : P.force
          · rfl
          · exact absurd hP hforce
        by_cases hsm : n < P.minsize
        · have hfilter : gwak.filter (fun hf => spec_eligible P size hf.2) = [] := by
            rw [List.filter_eq_nil_iff]
            intro hf _
            simp [spec_eligible, hforce2, hn, decide_eq_true_eq]
            omega
          simp [dedupeSizes, spec_selected_groups, hsmol, hsmolT, hforce2, hsm,
            hfilter, dedupeHashes, ihr]
        · simp [dedupeSizes, spec_selected_groups, hsmol, hsmolT, hforce2, hsm,
            dedupeHashes_filter P size n hn (Or.inr (by omega)), ihr]

/-- Any successful `_bury` returns the same record, computed independently of
the filesystem branches. -/
theorem bury_ok_record {P : Params} {size hash : String} {f : Path} {fs fs2 : FS}
    {r : Record} (h : (bury P size hash f).run fs = .ok r fs2) :
    r = { link := renderTarget (buryLink P size hash f), body := renderPath f } := by
  unfold bury at h
  obtain ⟨a1, s1, h1, h⟩ := bind_run_ok h
  obtain ⟨a2, s2, h2, h⟩ := bind_run_ok h
  rw [run_pure] at h
  cases h
  rfl

/-- Any successful `_rmdir` returns exactly the skip-condition boolean. -/
theorem rmdirM_ok_val {P : Params} {p : Path} {fs : FS} {b : Bool} {fs2 : FS}
    (h : (rmdirM P p).run fs = .ok b fs2) :
    b = (FS.isDir fs p && !FS.hasChild fs ((resolveLinks fs 41 p).getD p)) := by
  unfold rmdirM at h
  obtain ⟨a0, s0, h0, h⟩ := bind_run_ok h
  rw [run_getFS] at h0
  cases h0
  by_cases hc : (!FS.isDir fs p || FS.hasChild fs ((resolveLinks fs 41 p).getD p)) = true
  · rw [if_pos hc, run_pure] at h
    cases h
    revert hc
    cases FS.isDir fs p <;>
      cases FS.hasChild fs ((resolveLinks fs 41 p).getD p) <;> simp
  · rw [if_neg hc] at h
    obtain ⟨a1, s1, h1, h⟩ := bind_run_ok h
    rw [run_pure] at h
    cases h
    revert hc
    cases FS.isDir fs p <;>
      cases FS.hasChild fs ((resolveLinks fs 41 p).getD p) <;> simp

theorem exhumeLinks_run_dry {P : Params} (hdry : P.dry_run = true) (file : Path) :
    ∀ (links : List Path) (fs : FS),
    (exhumeLinks P file links).run fs = .ok ⟨⟩ fs := by
  intro links
  induction links with
  | nil => intro fs; rfl
  | cons l ls ih => intro fs; simp [exhumeLinks, hdry, ih]

theorem exhume_run_dry {P : Params} (hdry : P.dry_run = true) (file : Path)
    (links : List Path) (fs : FS) :
    (exhume P file links).run fs = .ok true fs := by
  simp [exhume, hdry, exhumeLinks_run_dry hdry]

theorem redupeHashes_run_allmiss (P : Params) (grave : Path) (size : String) :
    ∀ (gwak : List (String × List Path)) (fs : FS),
    (∀ hf ∈ gwak, FS.isFile fs (grave ++ [size, hf.1]) = false) →
    (redupeHashes P grave size gwak).run fs = .ok [] fs := by
  intro gwak
  induction gwak with
  | nil => intro fs _; rfl
  | cons hf rest ih =>
      intro fs h
      obtain ⟨hash, links⟩ := hf
      rw [redupeHashes_run_skip (h (hash, links) (by simp))]
      exact ih fs (fun g hg => h g (by simp [hg]))

theorem redupeSizes_run_allmiss (P : Params) (grave : Path)
    (hforce : P.force = false) :
    ∀ (gwaks : Gwaks) (fs : FS),
    (∀ sg ∈ gwaks, ∀ hf ∈ sg.2, FS.isFile fs (grave ++ [sg.1, hf.1]) = false) →
    (redupeSizes P grave gwaks).run fs = .ok [] fs := by
  intro gwaks
  induction gwaks with
  | nil => intro fs _; rfl
  | cons sg rest ih =>
      intro fs h
      obtain ⟨size, gwak⟩ := sg
      simp [redupeSizes, hforce,
        redupeHashes_run_allmiss P grave size gwak fs
          (fun hf hhf => h (size, gwak) (by simp) hf hhf),
        ih fs (fun g hg => h g (by simp [hg]))]

theorem get_ne_none_of_mem {fs : FS} {q : Path} {n : Node} (h : (q, n) ∈ fs) :
    FS.get fs q ≠ none := by
  induction fs with
  | nil => cases h
  | cons e t ih =>
      rcases List.mem_cons.mp h with rfl | hm
      · simp [FS.get]
      · obtain ⟨r, m⟩ := e
        by_cases hr : r = q <;> simp [FS.get, hr, ih hm]

theorem mem_of_get_eq_some {fs : FS} {q : Path} {n : Node}
    (h : FS.get fs q = some n) : (q, n) ∈ fs := by
  induction fs with
  | nil => cases h
  | cons e t ih =>
      obtain ⟨r, m⟩ := e
      by_cases hr : r = q
      · subst hr
        rw [get_cons, if_pos rfl] at h
        cases h
        simp
      · rw [get_cons, if_neg hr] at h
        simp [ih h]

/-! ## Concrete fixtures for witnesses -/

/-- Baseline settings: real run, no force, absolute grave `/g`. -/
def Pbase : Params :=
  { grave := ["g"]
    isabs := true
    dry_run := false
    force := false
    minsize := 0
    mindupe := 2
    manifest := ["g", "gwak"]
    format := "json"
    formats := ["yaml", "json"] }

def Pdry : Params := { Pbase with dry_run := true }

def Pforce : Params := { Pbase with force := true }

def Pc3 : Params := { Pbase with dry_run := true, minsize := 16 }

def Prel : Params := { Pbase with isabs := false, dry_run := true }

/-- One buried group: body `/g/s/h`, one recorded link `/t/x`. -/
def fsC2 : FS :=
  [(["g", "s", "h"], .file [9, 8]), (["t", "x"], .symlink (.abs ["g", "s", "h"])),
   (["t"], .dir), (["g"], .dir), (["g", "s"], .dir)]

def gwC2 : Gwaks := [("s", [("h", [["t", "x"]])])]

/-! ## The claims -/

/-- C3: for every fingerprint group in the index, `dedupe` buries the group
exactly when `force` is true, or the size key parsed as an integer is at
least `minsize` and the group has at least `mindupe` paths: running `dedupe`
equals running it (with the guards disarmed by `force`) on the index
restricted to the spec-eligible groups.  The hypothesis asks every size key
to parse, as `_is_smol` is evaluated (and would raise `ValueError`) before
the `force` flag short-circuits. -/
theorem c3_dedupe_selects_spec_eligible (P : Params) (gwaks : Gwaks) (fs : FS)
    (hparse : ∀ sg ∈ gwaks, (int16 sg.1).isSome = true) :
    (dedupe P gwaks).run fs =
      (dedupe { P with force := true } (spec_selected_groups P gwaks)).run fs :=
  dedupeSizes_filter P gwaks fs hparse

/-- Witness for C3 at a concrete index: one group passes both thresholds, one
fails the count threshold, and one size key fails the size threshold. -/
theorem c3_witness :
    (dedupe Pc3
      [("0000000000000010", [("h1", [["t", "a"], ["t", "b"]]), ("h2", [["t", "c"]])]),
       ("000000000000000a", [("h3", [["t", "d"], ["t", "e"]])])]).run [] =
    (dedupe { Pc3 with force := true }
      (spec_selected_groups Pc3
        [("0000000000000010", [("h1", [["t", "a"], ["t", "b"]]), ("h2", [["t", "c"]])]),
         ("000000000000000a", [("h3", [["t", "d"], ["t", "e"]])])])).run [] :=
  c3_dedupe_selects_spec_eligible _ _ _ (by decide)

/-- C2: whenever `redupe` (exhume) returns a boolean at all, that boolean is
`true`: every group it processes contributes the constant `True` from
`_exhume`, and a failing per-link unlink or copy raises (aborting the run)
instead of yielding `False`, so a returned overall boolean is the
conjunction of per-link copy outcomes that all succeeded. -/
theorem c2_redupe_ok_true (P : Params) (gwaks : Gwaks) (grave : Path) (fs : FS)
    (b : Bool) (fs2 : FS) (h : (redupe P gwaks grave).run fs = .ok b fs2) :
    b = true := by
  unfold redupe at h
  obtain ⟨bs, s1, h1, h⟩ := bind_run_ok h
  rw [run_pure] at h
  cases h
  exact redupeSizes_ok_all P grave gwaks fs bs _ h1

/-- Witness for C2: a run that really exhumes one group (body present, one
recorded link restored) completes and returns `true`. -/
theorem c2_witness : true = true :=
  c2_redupe_ok_true Pbase gwC2 ["g"] fsC2 true
    (resFS ((redupe Pbase gwC2 ["g"]).run fsC2))
    (eq_ok_of_resOut (by rfl))

/-- C10: every record returned by `_bury` has `link` equal to the symlink
target string (the absolute body path when the grave is absolute, otherwise
the body path relative to the file's parent) and `body` equal to the
original file's own path string — never the stored body's path. -/
theorem c10_bury_record (P : Params) (size hash : String) (f : Path) (fs fs2 : FS)
    (r : Record) (h : (bury P size hash f).run fs = .ok r fs2) :
    r.link = (if P.isabs = true then renderPath (bodyPath P size hash)
      else String.intercalate "/" (relpath (bodyPath P size hash) f.dropLast)) ∧
    r.body = renderPath f := by
  unfold bury at h
  obtain ⟨a1, s1, h1, h⟩ := bind_run_ok h
  obtain ⟨a2, s2, h2, h⟩ := bind_run_ok h
  rw [run_pure] at h
  cases h
  constructor
  · by_cases hab : P.isabs = true <;> simp [buryLink, renderTarget, hab]
  · rfl

/-- Witness for C10 with a relative grave path: the link field holds the
relative target, the body field holds the original path. -/
theorem c10_witness :
    ({ link := "../g/s/h", body := "/t/a" } : Record).link =
      (if Prel.isabs = true then renderPath (bodyPath Prel "s" "h")
        else String.intercalate "/"
          (relpath (bodyPath Prel "s" "h") (["t", "a"] : Path).dropLast)) ∧
    ({ link := "../g/s/h", body := "/t/a" } : Record).body = renderPath ["t", "a"] :=
  c10_bury_record Prel "s" "h" ["t", "a"] [] []
    { link := "../g/s/h", body := "/t/a" } (by rfl)

/-- C4: burying a group processes the paths in order (the records come back
in path order); for each path, if the body already exists as a regular file
the path is unlinked and replaced by a symlink to the body, and otherwise
the path is renamed to the body and replaced by a symlink — hence on a fresh
group the first path's bytes become the physical body and every path in the
group ends as a symlink to it, everything else untouched. -/
theorem c4_bury_group_first_body_rest_links (P : Params) (hdry : P.dry_run = false)
    (size hash : String) (bf : Path → List Nat)
    (f0 : Path) (rest : List Path) (fs : FS)
    (hnodup : (f0 :: rest).Nodup)
    (hpre : ∀ q ∈ prefixesOf (bodyDirname P size),
      FS.get fs q = none ∨ FS.get fs q = some .dir)
    (hbody : FS.get fs (bodyPath P size hash) = none)
    (hfiles : ∀ f ∈ f0 :: rest, FS.get fs f = some (.file (bf f)))
    (hdisj : ∀ f ∈ f0 :: rest,
      f ∉ prefixesOf (bodyDirname P size) ∧ f ≠ bodyPath P size hash) :
    resOut ((buryFiles P size hash (f0 :: rest)).run fs) =
      some ((f0 :: rest).map (fun f =>
        { link := renderTarget (buryLink P size hash f), body := renderPath f })) ∧
    FS.get (resFS ((buryFiles P size hash (f0 :: rest)).run fs)) (bodyPath P size hash) =
      some (.file (bf f0)) ∧
    (∀ f ∈ f0 :: rest, FS.get (resFS ((buryFiles P size hash (f0 :: rest)).run fs)) f =
      some (.symlink (buryLink P size hash f))) ∧
    (∀ p, p ∉ f0 :: rest → p ≠ bodyPath P size hash →
      p ∉ prefixesOf (bodyDirname P size) →
      FS.get (resFS ((buryFiles P size hash (f0 :: rest)).run fs)) p = FS.get fs p) :=
  buryFiles_run_fresh P hdry size hash bf f0 rest fs hnodup hpre hbody hfiles hdisj

/-- Starting filesystem for the C4 witness: two identical files under `/t`,
an empty grave parent `/g`. -/
def fsC4 : FS :=
  [(["t"], .dir), (["t", "a"], .file [1]), (["t", "b"], .file [1]), (["g"], .dir)]

/-- Witness for C4: burying the two-path group really moves the first path's
bytes into the body and turns both paths into links. -/
theorem c4_witness :
    FS.get (resFS ((buryFiles Pbase "s" "h" [["t", "a"], ["t", "b"]]).run fsC4))
      (bodyPath Pbase "s" "h") = some (.file [1]) ∧
    FS.get (resFS ((buryFiles Pbase "s" "h" [["t", "a"], ["t", "b"]]).run fsC4))
      ["t", "b"] = some (.symlink (buryLink Pbase "s" "h" ["t", "b"])) := by
  have h := c4_bury_group_first_body_rest_links Pbase rfl "s" "h" (fun _ => [1])
    ["t", "a"] [["t", "b"]] fsC4 (by decide) (by decide) (by decide) (by decide)
    (by decide)
  exact ⟨h.2.1, h.2.2.1 ["t", "b"] (by decide)⟩

/-- A buried group whose body exists but whose recorded link path `/t/x` is
absent from the filesystem. -/
def fsC7 : FS := [(["g", "s", "h"], .file [1]), (["g"], .dir), (["g", "s"], .dir)]

/-- Counterexample to C7: during exhume, a recorded link path that is absent
is not skipped — `Path.unlink` raises `FileNotFoundError` and the run
fails.  (The body `/g/s/h` exists; the recorded path `/t/x` does not.) -/
theorem c7_counterexample :
    (redupe Pbase [("s", [("h", [["t", "x"]])])] ["g"]).run fsC7 =
      .error (.fileNotFound ["t", "x"]) fsC7 := rfl

/-- C7 as amended: during validation, recorded paths or bodies that are
absent are skipped and do not count against the aggregate (an index whose
entities are all missing validates to `True` with the filesystem untouched),
and `redupe` without `force` skips groups whose body is missing without
raising; but — unlike the original claim — a recorded link path that is
absent during exhume is not skipped: the unlink raises (see the
counterexample). -/
theorem c7_missing_entities_skipped (P : Params) (gwaks : Gwaks) (grave : Path)
    (fs : FS) (hforce : P.force = false)
    (h1 : ∀ sg ∈ gwaks, ∀ hf ∈ sg.2, ∀ f ∈ hf.2, FS.isFile fs f = false)
    (h2 : ∀ sg ∈ gwaks, ∀ hf ∈ sg.2, FS.isFile fs (grave ++ [sg.1, hf.1]) = false) :
    (validate_files gwaks).run fs = .ok true fs ∧
    (validate_grave gwaks grave).run fs = .ok true fs ∧
    (redupe P gwaks grave).run fs = .ok true fs := by
  refine ⟨?_, ?_, ?_⟩
  · simp [validate_files, validateFilesSizes_run_missing gwaks fs h1]
  · simp [validate_grave, validateGraveSizes_run_missing grave gwaks fs h2]
  · simp [redupe, redupeSizes_run_allmiss P grave hforce gwaks fs h2]

/-- Witness for C7's amended statement: a one-group index whose recorded path
and body are both missing validates and redupes to `True` on an empty
filesystem. -/
theorem c7_witness :
    (validate_files gwC2).run [] = .ok true [] ∧
    (validate_grave gwC2 ["g"]).run [] = .ok true [] ∧
    (redupe Pbase gwC2 ["g"]).run [] = .ok true [] :=
  c7_missing_entities_skipped Pbase gwC2 ["g"] [] rfl (by decide) (by decide)

/-- Counterexample to C5: `_write_manifest` does not return the same result
in dry-run and real mode — the dry run returns `True` while the real run
returns `None` (the value of `json.dump`). -/
theorem c5_counterexample :
    (write_manifest encZero encZero Pdry []).run [(["g"], .dir)] =
      .ok (some true) [(["g"], .dir)] ∧
    (write_manifest encZero encZero Pbase []).run [(["g"], .dir)] =
      .ok none [(["g", "gwak"], .file []), (["g"], .dir)] ∧
    (some true : Option Bool) ≠ none := ⟨rfl, rfl, by decide⟩

/-- C5 as amended.  With the dry-run flag set, no operation mutates the
filesystem: `_bury` returns its record with the state unchanged (and it is
the same record a successful real run returns), `_exhume` returns `True`
with the state unchanged (as does a completed real run), `_rmdir` returns
the same boolean a successful real run would while leaving the state alone,
and `_write_manifest` performs no I/O at all — but, unlike the original
claim, `_write_manifest` returns `True` in a dry run whereas a real run
returns `None` (see the counterexample). -/
theorem c5_dry_run_no_mutation (P : Params) (hdry : P.dry_run = true)
    (size hash : String) (f file : Path) (links : List Path) (p : Path)
    (eY eJ : Gwaks → List Nat) (data : Gwaks) (fs : FS) :
    (bury P size hash f).run fs =
      .ok { link := renderTarget (buryLink P size hash f), body := renderPath f } fs ∧
    (∀ r fs2, (bury { P with dry_run := false } size hash f).run fs = .ok r fs2 →
      r = { link := renderTarget (buryLink P size hash f), body := renderPath f }) ∧
    (exhume P file links).run fs = .ok true fs ∧
    (∀ b fs2, (exhume { P with dry_run := false } file links).run fs = .ok b fs2 →
      b = true) ∧
    (rmdirM P p).run fs =
      .ok (FS.isDir fs p && !FS.hasChild fs ((resolveLinks fs 41 p).getD p)) fs ∧
    (∀ b fs2, (rmdirM { P with dry_run := false } p).run fs = .ok b fs2 →
      b = (FS.isDir fs p && !FS.hasChild fs ((resolveLinks fs 41 p).getD p))) ∧
    (write_manifest eY eJ P data).run fs = .ok (some true) fs := by
  refine ⟨bury_run_dry P hdry size hash f fs, ?_, exhume_run_dry hdry file links fs,
    ?_, rmdirM_run_dry P hdry, ?_, ?_⟩
  · intro r fs2 h
    exact @bury_ok_record { P with dry_run := false } _ _ _ _ _ _ h
  · intro b fs2 h
    exact exhume_ok_true h
  · intro b fs2 h
    exact rmdirM_ok_val h
  · simp [write_manifest, hdry]

/-- Witness for C5 at concrete inputs: a dry bury and a dry manifest write on
a one-directory filesystem. -/
theorem c5_witness :
    (bury Pdry "s" "h" ["t", "a"]).run [(["t"], .dir)] =
      .ok { link := renderTarget (buryLink Pdry "s" "h" ["t", "a"]),
            body := renderPath ["t", "a"] } [(["t"], .dir)] ∧
    (write_manifest encZero encZero Pdry []).run [(["t"], .dir)] =
      .ok (some true) [(["t"], .dir)] := by
  have h := c5_dry_run_no_mutation Pdry rfl "s" "h" ["t", "a"] ["g", "s", "h"] []
    ["g", "s"] encZero encZero [] [(["t"], .dir)]
  exact ⟨h.1, h.2.2.2.2.2.2⟩

theorem self_notMem_prefixes_dropLast (p : Path) : p ∉ prefixesOf p.dropLast := by
  intro h
  have h1 := length_le_of_mem_prefixesOf h
  rw [List.length_dropLast] at h1
  have h2 : 0 < p.dropLast.length := by
    simp only [prefixesOf, List.mem_map, List.mem_range] at h
    obtain ⟨i, hi, _⟩ := h
    omega
  rw [List.length_dropLast] at h2
  omega

/-- Settings requesting the unsupported manifest format `xml`, with the
manifest in a not-yet-created directory `/g/m`. -/
def P6 : Params := { Pbase with format := "xml", manifest := ["g", "m", "gwak"] }

/-- Counterexample to C6: with an unsupported format, `_write_manifest` does
not abort before any I/O — it creates the manifest's parent directory
`/g/m` first and only then raises `NotImplementedError`. -/
theorem c6_counterexample :
    (write_manifest encZero encZero P6 []).run [(["g"], .dir)] =
      .error (.notImplemented "xml") [(["g", "m"], .dir), (["g"], .dir)] ∧
    ([(["g", "m"], .dir), (["g"], .dir)] : FS) ≠ [(["g"], .dir)] := ⟨rfl, by decide⟩

/-- C6 as amended: requesting an unsupported manifest format is fatal for
both reading and writing.  `_read_manifest` checks the format first and
raises with the filesystem untouched, before any file is opened.
`_write_manifest`, however, raises the error only after creating the
manifest's parent directories (and after backing up an existing manifest —
here excluded by `hman`), leaving those mutations behind. -/
theorem c6_bad_format_fatal (P : Params) (eY eJ : Gwaks → List Nat) (data : Gwaks)
    (fs : FS) (hfmt : P.format ∉ P.formats) (hdry : P.dry_run = false)
    (hpre : ∀ q ∈ prefixesOf P.manifest.dropLast,
      FS.get fs q = none ∨ FS.get fs q = some .dir)
    (hman : FS.get fs P.manifest = none) :
    (read_manifest P).run fs = .error (.notImplemented P.format) fs ∧
    (write_manifest eY eJ P data).run fs =
      .error (.notImplemented P.format)
        (mkdirFold fs (prefixesOf P.manifest.dropLast)) := by
  have hman1 : FS.get (mkdirFold fs (prefixesOf P.manifest.dropLast)) P.manifest
      = none := by
    rw [get_mkdirFold_notMem _ _ (self_notMem_prefixes_dropLast P.manifest)]
    exact hman
  constructor
  · simp [read_manifest, hfmt]
  · simp [write_manifest, hdry, mkdirParentsM_run _ _ hpre, isFile_none hman1, hfmt]

/-- Witness for C6's amended statement at the concrete bad-format settings. -/
theorem c6_witness :
    (read_manifest P6).run [(["g"], .dir)] =
      .error (.notImplemented P6.format) [(["g"], .dir)] ∧
    (write_manifest encZero encZero P6 []).run [(["g"], .dir)] =
      .error (.notImplemented P6.format)
        (mkdirFold [(["g"], .dir)] (prefixesOf P6.manifest.dropLast)) :=
  c6_bad_format_fatal P6 encZero encZero [] [(["g"], .dir)] (by decide) rfl
    (by decide) (by decide)

/-- A symbolic link to an empty directory. -/
def fsC9s : FS := [(["l"], .symlink (.abs ["d"])), (["d"], .dir)]

/-- Counterexample to C9: `_rmdir` is not always a non-error no-op on
non-directories — on a symlink to an empty directory, `is_dir()` (which
follows the link) and the emptiness check both pass, and `os.rmdir` then
raises `NotADirectoryError`. -/
theorem c9_counterexample :
    (rmdirM Pbase ["l"]).run fsC9s = .error (.notADirectory ["l"]) fsC9s := rfl

/-- C9 as amended.  During a forced exhume of a group whose body exists, the
recorded links are all restored with the body's original bytes — so the body
is read for every copy before it is deleted — the body is then removed, the
`hashdir` removal is a no-op (that path held the body file, not a
directory), and the now-empty size directory is removed; `_rmdir` itself
skips, without error and without touching the state, whenever its target is
not a directory (including not existing) or its resolved target is
non-empty — except that, unlike the original claim, a symlink to an empty
directory makes it raise (see the counterexample). -/
theorem c9_force_exhume_order (P : Params) (hforce : P.force = true)
    (hdry : P.dry_run = false) (size hash : String) (grave : Path)
    (links : List Path) (bb : List Nat) (nf : Path → Node) (fs : FS)
    (hnodup : links.Nodup)
    (hbody : FS.get fs (grave ++ [size, hash]) = some (.file bb))
    (hlinks : ∀ l ∈ links, FS.get fs l = some (nf l) ∧ nf l ≠ .dir)
    (hlout : ∀ l ∈ links, ¬ (grave ++ [size]) <+: l)
    (hsizedir : FS.get fs (grave ++ [size]) = some .dir)
    (honly : ∀ e ∈ fs, (grave ++ [size]) <+: e.1 →
      e.1 = grave ++ [size] ∨ e.1 = grave ++ [size, hash]) :
    (∀ (P2 : Params) (fs2 : FS) (p : Path),
      FS.isDir fs2 p = false ∨
        FS.hasChild fs2 ((resolveLinks fs2 41 p).getD p) = true →
      (rmdirM P2 p).run fs2 = .ok false fs2) ∧
    resOut ((redupe P [(size, [(hash, links)])] grave).run fs) = some true ∧
    (∀ l ∈ links, FS.get (resFS ((redupe P [(size, [(hash, links)])] grave).run fs)) l
      = some (.file bb)) ∧
    FS.get (resFS ((redupe P [(size, [(hash, links)])] grave).run fs))
      (grave ++ [size, hash]) = none ∧
    FS.get (resFS ((redupe P [(size, [(hash, links)])] grave).run fs))
      (grave ++ [size]) = none ∧
    (∀ p, p ∉ links → p ≠ grave ++ [size, hash] → p ≠ grave ++ [size] →
      FS.get (resFS ((redupe P [(size, [(hash, links)])] grave).run fs)) p =
        FS.get fs p) := by
  have hpfx : (grave ++ [size]) <+: (grave ++ [size, hash]) := by
    refine ⟨[hash], ?_⟩
    simp
  have hbody_ne_sizedir : grave ++ [size, hash] ≠ grave ++ [size] := by
    intro h
    have := congrArg List.length h
    simp at this
  have hlne : ∀ l ∈ links, l ≠ grave ++ [size, hash] := by
    intro l hl he
    exact hlout l hl (he ▸ hpfx)
  have hsd_notmem : grave ++ [size] ∉ links := by
    intro hmem
    exact hlout _ hmem (List.prefix_refl _)
  obtain ⟨hout, hbody3, hlinks3, hframe3⟩ :=
    exhume_run_force P hdry hforce (grave ++ [size, hash]) bb nf links fs hnodup
      hbody hlinks hlne
  cases hE : (exhume P (grave ++ [size, hash]) links).run fs with
  | error e s =>
      rw [hE] at hout
      cases hout
  | ok v fs3 =>
      rw [hE] at hout hbody3 hlinks3 hframe3
      simp only [resOut_ok, Option.some.injEq] at hout
      subst hout
      simp only [resFS_ok] at hbody3 hlinks3 hframe3
      have hR1 : (rmdirM P (grave ++ [size, hash])).run fs3 = .ok false fs3 :=
        rmdirM_run_skip P (Or.inl (isDir_none hbody3))
      have hdir3 : FS.get fs3 (grave ++ [size]) = some .dir := by
        rw [hframe3 _ hsd_notmem (Ne.symm hbody_ne_sizedir)]
        exact hsizedir
      have hchild3 : FS.hasChild fs3 (grave ++ [size]) = false := by
        rw [FS.hasChild, List.any_eq_false]
        rintro ⟨q, m⟩ hmem
        simp only [decide_eq_true_eq, not_and]
        intro hne hq
        have hqne_body : q ≠ grave ++ [size, hash] := by
          intro he
          subst he
          exact get_ne_none_of_mem hmem hbody3
        have hq_notlink : q ∉ links := fun hm => hlout q hm hq
        have hgq : FS.get fs3 q ≠ none := get_ne_none_of_mem hmem
        rw [hframe3 q hq_notlink hqne_body] at hgq
        rcases hg : FS.get fs q with _ | n2
        · exact hgq hg
        · rcases honly _ (mem_of_get_eq_some hg) hq with he | he
          · exact hne he.symm
          · exact hqne_body he
      have hR2 : (rmdirM P (grave ++ [size])).run fs3 =
          .ok true (FS.del fs3 (grave ++ [size])) :=
        rmdirM_run_dir P hdry hdir3 hchild3
      have hisf : FS.isFile fs (grave ++ [size, hash]) = true := isFile_file hbody
      have hrun : (redupe P [(size, [(hash, links)])] grave).run fs =
          .ok true (FS.del fs3 (grave ++ [size])) := by
        simp [redupe, redupeSizes, redupeHashes, hisf, hE, hforce, hR1, hR2]
      refine ⟨fun P2 fs2 p h => rmdirM_run_skip P2 h, by simp [hrun], ?_, ?_, ?_, ?_⟩
      · intro l hl
        rw [hrun]
        simp only [resFS_ok]
        rw [get_del_ne _ (fun he => hsd_notmem (by rw [he]; exact hl)),
          hlinks3 l hl]
      · rw [hrun]
        simp only [resFS_ok]
        rw [get_del_ne _ (Ne.symm hbody_ne_sizedir)]
        exact hbody3
      · rw [hrun]
        simp only [resFS_ok, get_del_self]
      · intro p hp hpb hps
        rw [hrun]
        simp only [resFS_ok]
        rw [get_del_ne _ (Ne.symm hps), hframe3 p hp hpb]

/-- Starting filesystem for the C9 witness: one buried group with two links
outside the grave. -/
def fsC9 : FS :=
  [(["g", "s", "h"], .file [7]),
   (["t", "x"], .symlink (.abs ["g", "s", "h"])),
   (["t", "y"], .symlink (.abs ["g", "s", "h"])),
   (["t"], .dir), (["g"], .dir), (["g", "s"], .dir)]

/-- Witness for C9's amended statement: a concrete forced exhume restores
both links with the body's bytes, deletes the body, removes the emptied size
directory, and a concrete skipping `_rmdir` returns `False` untouched. -/
theorem c9_witness :
    (rmdirM Pbase ["g", "s", "h"]).run fsC9 = .ok false fsC9 ∧
    resOut ((redupe Pforce [("s", [("h", [["t", "x"], ["t", "y"]])])] ["g"]).run fsC9)
      = some true ∧
    FS.get (resFS ((redupe Pforce
      [("s", [("h", [["t", "x"], ["t", "y"]])])] ["g"]).run fsC9)) ["t", "y"] =
      some (.file [7]) ∧
    FS.get (resFS ((redupe Pforce
      [("s", [("h", [["t", "x"], ["t", "y"]])])] ["g"]).run fsC9)) ["g", "s", "h"] =
      none ∧
    FS.get (resFS ((redupe Pforce
      [("s", [("h", [["t", "x"], ["t", "y"]])])] ["g"]).run fsC9)) ["g", "s"] =
      none := by
  have h := c9_force_exhume_order Pforce rfl rfl "s" "h" ["g"]
    [["t", "x"], ["t", "y"]] [7]
    (fun l => .symlink (.abs ["g", "s", "h"])) fsC9
    (by decide) (by decide) (by decide) (by decide) (by decide) (by decide)
  exact ⟨h.1 Pbase fsC9 ["g", "s", "h"] (Or.inl (by decide)),
    h.2.1, h.2.2.1 ["t", "y"] (by decide), h.2.2.2.1, h.2.2.2.2.1⟩

/-! Facts about the SHA3-512 digest needed for the fingerprint claim. -/

theorem sha3_512_bytes_length (m : List Nat) : (sha3_512_bytes m).length = 64 := by
  simp [sha3_512_bytes]

theorem sha3_512_bytes_lt (m : List Nat) : ∀ d ∈ sha3_512_bytes m, d < 256 := by
  intro d hd
  simp only [sha3_512_bytes, List.mem_map, List.mem_range] at hd
  obtain ⟨i, _, rfl⟩ := hd
  exact Nat.mod_lt _ (by norm_num)

theorem ofDigits256_lt : ∀ L : List Nat, (∀ d ∈ L, d < 256) →
    Nat.ofDigits 256 L < 256 ^ L.length := by
  intro L
  induction L with
  | nil => intro _; simp [Nat.ofDigits_nil]
  | cons d t ih =>
      intro h
      have hd : d < 256 := h d (by simp)
      have ht := ih (fun x hx => h x (by simp [hx]))
      rw [Nat.ofDigits_cons, List.length_cons, pow_succ]
      have hcast : Nat.ofDigits 256 t + 1 ≤ 256 ^ t.length := ht
      calc d + 256 * Nat.ofDigits 256 t
          ≤ 255 + 256 * Nat.ofDigits 256 t := by omega
        _ < 256 * (Nat.ofDigits 256 t + 1) := by omega
        _ ≤ 256 * 256 ^ t.length := by
            exact Nat.mul_le_mul_left 256 hcast
        _ = 256 ^ t.length * 256 := by ring

theorem ofDigits256_inj : ∀ L1 L2 : List Nat, L1.length = L2.length →
    (∀ d ∈ L1, d < 256) → (∀ d ∈ L2, d < 256) →
    Nat.ofDigits 256 L1 = Nat.ofDigits 256 L2 → L1 = L2 := by
  intro L1
  induction L1 with
  | nil =>
      intro L2 hlen _ _ _
      cases L2 with
      | nil => rfl
      | cons d t => cases hlen
  | cons d1 t1 ih =>
      intro L2 hlen h1 h2 heq
      cases L2 with
      | nil => cases hlen
      | cons d2 t2 =>
          rw [Nat.ofDigits_cons, Nat.ofDigits_cons] at heq
          have hd1 : d1 < 256 := h1 d1 (by simp)
          have hd2 : d2 < 256 := h2 d2 (by simp)
          have hdeq : d1 = d2 ∧
              Nat.ofDigits 256 t1 = Nat.ofDigits 256 t2 := by
            constructor <;> omega
          rw [hdeq.1, ih t2 (by simpa using hlen)
            (fun x hx => h1 x (by simp [hx]))
            (fun x hx => h2 x (by simp [hx])) hdeq.2]

theorem string_length_mk (l : List Char) : (String.mk l).length = l.length := rfl

/-- The size key's length: the hexadecimal digit count of the byte length,
padded up to 16. -/
theorem format_size_length (b : List Nat) :
    (format_size b).length =
      (Nat.digits 16 b.length).length + (16 - (Nat.digits 16 b.length).length) := by
  unfold format_size format_size_of_len
  simp only [string_length_mk, List.length_map, List.length_reverse,
    List.length_append, List.length_replicate]

/-- A length-65 byte sequence from a function. -/
def byteSeq (g : Fin 65 → Fin 256) : List Nat := (List.ofFn g).map Fin.val

theorem byteSeq_inj : Function.Injective byteSeq := by
  intro g1 g2 h
  unfold byteSeq at h
  have h2 := List.map_injective_iff.mpr Fin.val_injective h
  exact List.ofFn_injective h2

theorem byteSeq_length (g : Fin 65 → Fin 256) : (byteSeq g).length = 65 := by
  simp [byteSeq]

/-- By pigeonhole over the 512-bit digest space, two distinct equal-length
byte sequences share both fingerprint components. -/
theorem fingerprint_not_injective :
    ∃ b1 b2 : List Nat, b1 ≠ b2 ∧
      format_size b1 = format_size b2 ∧ format_hash b1 = format_hash b2 := by
  have hbound : ∀ g : Fin 65 → Fin 256,
      Nat.ofDigits 256 (sha3_512_bytes (byteSeq g)) < 2 ^ 512 := by
    intro g
    have h := ofDigits256_lt _ (sha3_512_bytes_lt (byteSeq g))
    rw [sha3_512_bytes_length] at h
    calc Nat.ofDigits 256 (sha3_512_bytes (byteSeq g)) < 256 ^ 64 := h
      _ = 2 ^ 512 := by norm_num
  set F : (Fin 65 → Fin 256) → Fin (2 ^ 512) :=
    fun g => ⟨Nat.ofDigits 256 (sha3_512_bytes (byteSeq g)), hbound g⟩ with hF
  have hnotinj : ¬ Function.Injective F := by
    intro hinj
    have hcard := Fintype.card_le_of_injective F hinj
    rw [Fintype.card_fun, Fintype.card_fin, Fintype.card_fin, Fintype.card_fin]
      at hcard
    have : (2 : ℕ) ^ 512 < 256 ^ 65 := by norm_num
    omega
  obtain ⟨g1, g2, hFeq, hne⟩ := Function.not_injective_iff.mp hnotinj
  refine ⟨byteSeq g1, byteSeq g2, fun h => hne (byteSeq_inj h), ?_, ?_⟩
  · unfold format_size
    rw [byteSeq_length, byteSeq_length]
  · have hdig : Nat.ofDigits 256 (sha3_512_bytes (byteSeq g1)) =
        Nat.ofDigits 256 (sha3_512_bytes (byteSeq g2)) := by
      have := congrArg Fin.val hFeq
      simpa [hF] using this
    have hlists : sha3_512_bytes (byteSeq g1) = sha3_512_bytes (byteSeq g2) :=
      ofDigits256_inj _ _
        (by rw [sha3_512_bytes_length, sha3_512_bytes_length])
        (sha3_512_bytes_lt _) (sha3_512_bytes_lt _) hdig
    unfold format_hash
    rw [hlists]

/-- Counterexample to C8: the fingerprint is not injective (two distinct
byte sequences of length 65 collide, by pigeonhole on the 512-bit digest),
and the size key of a byte sequence of length `2^64` has 17 hexadecimal
digits, not 16 (`'{:016x}'` pads but never truncates). -/
theorem c8_counterexample :
    (¬ ∀ b1 b2 : List Nat,
      (format_size b1 = format_size b2 ∧ format_hash b1 = format_hash b2) ↔
        b1 = b2) ∧
    (format_size (List.replicate (2 ^ 64) 0)).length ≠ 16 := by
  constructor
  · intro h
    obtain ⟨b1, b2, hne, hs, hh⟩ := fingerprint_not_injective
    exact hne ((h b1 b2).mp ⟨hs, hh⟩)
  · have hlen : (Nat.digits 16 (2 ^ 64)).length = 17 := by
      rw [Nat.digits_len 16 (2 ^ 64) (by norm_num) (by positivity)]
      have : Nat.log 16 (2 ^ 64) = 16 :=
        Nat.log_eq_of_pow_le_of_lt_pow (by norm_num) (by norm_num)
      omega
    rw [format_size_length, List.length_replicate, hlen]
    omega

theorem length_flatMap_hexPair : ∀ L : List Nat,
    (L.flatMap (fun b => [hexChar (b / 16), hexChar (b % 16)])).length =
      2 * L.length := by
  intro L
  induction L with
  | nil => rfl
  | cons d t ih =>
      simp only [List.flatMap_cons, List.length_append, List.length_cons,
        List.length_nil, ih]
      omega

/-- C8 as amended: the fingerprint components are pure deterministic
functions of the byte content; the size key is the byte length in
lowercase hexadecimal, zero-padded to 16 digits (exactly 16 digits whenever
the length is below `2^64`) and parses back to the exact byte length (hence
two size keys agree exactly on equal lengths); the hash is the 128-character
SHA3-512 hexdigest; equal content gives equal fingerprints — but the
converse fails in principle (see the counterexample): fingerprints are not
injective on all byte sequences. -/
theorem c8_fingerprint_amended :
    (∀ b1 b2 : List Nat, b1 = b2 →
      format_size b1 = format_size b2 ∧ format_hash b1 = format_hash b2) ∧
    (∀ b : List Nat, int16 (format_size b) = some b.length) ∧
    (∀ b1 b2 : List Nat, format_size b1 = format_size b2 ↔ b1.length = b2.length) ∧
    (∀ b : List Nat, b.length < 2 ^ 64 → (format_size b).length = 16) ∧
    (∀ b : List Nat, (format_hash b).length = 128) := by
  refine ⟨?_, ?_, ?_, ?_, ?_⟩
  · intro b1 b2 h
    subst h
    exact ⟨rfl, rfl⟩
  · intro b
    exact int16_format_size_of_len b.length
  · intro b1 b2
    exact format_size_eq_iff
  · intro b hb
    have hle : (Nat.digits 16 b.length).length ≤ 16 := by
      rcases Nat.eq_zero_or_pos b.length with h0 | hpos
      · simp [h0]
      · rw [Nat.digits_len 16 _ (by norm_num) (by omega)]
        have hlog : Nat.log 16 b.length < 16 :=
          Nat.log_lt_of_lt_pow (by omega)
            (by calc b.length < 2 ^ 64 := hb
                  _ = 16 ^ 16 := by norm_num)
        omega
    rw [format_size_length]
    omega
  · intro b
    unfold format_hash
    rw [string_length_mk, length_flatMap_hexPair, sha3_512_bytes_length]

/-- Witness for C8's amended statement at concrete byte sequences. -/
theorem c8_witness :
    format_size [3, 4] = format_size [7, 8] ∧
    int16 (format_size [9]) = some 1 ∧
    (format_size [5, 5]).length = 16 ∧
    (format_hash []).length = 128 := by
  have h := c8_fingerprint_amended
  exact ⟨(h.2.2.1 [3, 4] [7, 8]).mpr rfl, h.2.1 [9],
    h.2.2.2.1 [5, 5] (by norm_num), h.2.2.2.2 []⟩

/-! ## C1 — bury/exhume round-trip on a concrete duplicate tree -/

/-- Content shared by the two duplicate files (`b"dup"`). -/
def dupBytes : List Nat := [100, 117, 112]

/-- Content of the distinct third file (`b"uniq"`). -/
def uniqBytes : List Nat := [117, 110, 105, 113]

/-- Parameters for the round-trip: grave under the target tree, absolute
links, no dry-run, no force, `minsize = 0`, `mindupe = 2`. -/
def P1 : Params :=
  { grave := ["tgt", "._gwak"]
    isabs := true
    dry_run := false
    force := false
    minsize := 0
    mindupe := 2
    manifest := ["tgt", "._gwak", "gwak"]
    format := "json"
    formats := ["yaml", "json"] }

def pathA : Path := ["tgt", "a"]

def pathB : Path := ["tgt", "b"]

def pathC : Path := ["tgt", "c"]

/-- The scanned tree: `/tgt/a` and `/tgt/b` hold `dup`, `/tgt/c` holds
`uniq`. -/
def fs0 : FS :=
  [(["tgt"], .dir), (pathA, .file dupBytes), (pathB, .file dupBytes),
   (pathC, .file uniqBytes)]

/-- The manifest index as `make_manifest` computes it for `fs0`: one group
per fingerprint, keyed by `__format_size`/`__format_hash` of the content. -/
def gwaks1 : Gwaks :=
  [(format_size dupBytes, [(format_hash dupBytes, [pathA, pathB])]),
   (format_size uniqBytes, [(format_hash uniqBytes, [pathC])])]

/-- The body path of the duplicate fingerprint. -/
def bodyD : Path := bodyPath P1 (format_size dupBytes) (format_hash dupBytes)

/-- The (never created) body path of the unique fingerprint. -/
def bodyU : Path := bodyPath P1 (format_size uniqBytes) (format_hash uniqBytes)

/-- The result of the bury pass (`dedupe`) on the scanned tree. -/
def runBury : EStateM.Result Err FS (List Record) := (dedupe P1 gwaks1).run fs0

def fsAfterBury : FS := resFS runBury

/-- The result of the exhume pass (`redupe`) on the buried tree. -/
def runExhume : EStateM.Result Err FS Bool :=
  (redupe P1 gwaks1 P1.grave).run fsAfterBury

def fsAfterExhume : FS := resFS runExhume

/-- C1: bury/exhume round-trip.  On a tree holding duplicates `/tgt/a` and
`/tgt/b` (content `dup`) and a distinct `/tgt/c`, with `minsize = 0` and
`mindupe = 2`: after `dedupe` (bury) exactly one body exists, at
`grave/<size>/<hash>` of the duplicate content (and none for the unique
fingerprint), both `/tgt/a` and `/tgt/b` are symbolic links resolving to that
body, and `/tgt/c` is unchanged; after `redupe` (exhume) with `force = false`
the run reports success, `/tgt/a` and `/tgt/b` are again regular files holding
the original bytes, the body still exists, and `/tgt/c` is unchanged. -/
theorem c1_bury_exhume_roundtrip :
    resErr runBury = none ∧
    FS.get fsAfterBury bodyD = some (.file dupBytes) ∧
    FS.get fsAfterBury bodyU = none ∧
    FS.get fsAfterBury pathA = some (.symlink (.abs bodyD)) ∧
    FS.get fsAfterBury pathB = some (.symlink (.abs bodyD)) ∧
    FS.statNode fsAfterBury pathA = some (.file dupBytes) ∧
    FS.statNode fsAfterBury pathB = some (.file dupBytes) ∧
    FS.get fsAfterBury pathC = some (.file uniqBytes) ∧
    resOut runExhume = some true ∧
    FS.get fsAfterExhume pathA = some (.file dupBytes) ∧
    FS.get fsAfterExhume pathB = some (.file dupBytes) ∧
    FS.get fsAfterExhume bodyD = some (.file dupBytes) ∧
    FS.get fsAfterExhume pathC = some (.file uniqBytes) := by
  have hminsize : P1.minsize = 0 := rfl
  have hmindupe : P1.mindupe = 2 := rfl
  have hforce : P1.force = false := rfl
  have hgrave : P1.grave = ["tgt", "._gwak"] := rfl
  have hsD3 : int16 (format_size dupBytes) = some 3 := int16_format_size_of_len 3
  have hsU4 : int16 (format_size uniqBytes) = some 4 := int16_format_size_of_len 4
  have hsne : format_size uniqBytes ≠ format_size dupBytes := by
    intro h
    have h2 := format_size_eq_iff.mp h
    simp [uniqBytes, dupBytes] at h2
  have hsmolD : is_smol P1 (format_size dupBytes) = some false := by
    simp [is_smol, hsD3, hminsize]
  have hsmolU : is_smol P1 (format_size uniqBytes) = some false := by
    simp [is_smol, hsU4, hminsize]
  have hprefD : prefixesOf (bodyDirname P1 (format_size dupBytes)) =
      [["tgt"], ["tgt", "._gwak"], ["tgt", "._gwak", format_size dupBytes]] := rfl
  have haG : ("a" : String) ≠ "._gwak" := by decide
  have hbG : ("b" : String) ≠ "._gwak" := by decide
  have hcG : ("c" : String) ≠ "._gwak" := by decide
  have hGa : ("._gwak" : String) ≠ "a" := by decide
  have hGb : ("._gwak" : String) ≠ "b" := by decide
  have hBF := buryFiles_run_fresh P1 rfl (format_size dupBytes) (format_hash dupBytes)
    (fun _ => dupBytes) pathA [pathB] fs0
    (by decide)
    (by
      rw [hprefD]
      intro q hq
      simp only [List.mem_cons, List.not_mem_nil, or_false] at hq
      rcases hq with rfl | rfl | rfl
      · exact Or.inr rfl
      · exact Or.inl rfl
      · exact Or.inl rfl)
    rfl
    (by
      intro f hf
      simp only [List.mem_cons, List.not_mem_nil, or_false] at hf
      rcases hf with rfl | rfl
      · rfl
      · rfl)
    (by
      intro f hf
      simp only [List.mem_cons, List.not_mem_nil, or_false] at hf
      rcases hf with rfl | rfl
      · refine ⟨?_, ?_⟩
        · rw [hprefD]
          intro hm
          simp only [List.mem_cons, List.not_mem_nil, or_false] at hm
          rcases hm with h | h | h
          · simp [pathA] at h
          · simp [pathA, haG] at h
          · simp [pathA, haG] at h
        · intro h
          simp [pathA, bodyPath, bodyDirname, hgrave, haG] at h
      · refine ⟨?_, ?_⟩
        · rw [hprefD]
          intro hm
          simp only [List.mem_cons, List.not_mem_nil, or_false] at hm
          rcases hm with h | h | h
          · simp [pathB] at h
          · simp [pathB, hbG] at h
          · simp [pathB, hbG] at h
        · intro h
          simp [pathB, bodyPath, bodyDirname, hgrave, hbG] at h)
  obtain ⟨houtB, hbodyA0, hlinksA0, hframeA0⟩ := hBF
  cases hR : (buryFiles P1 (format_size dupBytes) (format_hash dupBytes)
      [pathA, pathB]).run fs0 with
  | error e s =>
      rw [hR] at houtB
      cases houtB
  | ok recs fsA =>
      rw [hR] at houtB hbodyA0 hlinksA0 hframeA0
      simp only [resFS_ok] at hbodyA0 hlinksA0 hframeA0
      have hded : (dedupe P1 gwaks1).run fs0 = .ok recs fsA := by
        simp [dedupe, dedupeSizes, dedupeHashes, gwaks1, hsmolD, hsmolU,
          hmindupe, hforce, hR]
      have hbodyA : FS.get fsA
          (bodyPath P1 (format_size dupBytes) (format_hash dupBytes)) =
          some (.file dupBytes) := hbodyA0
      have hlinkA : FS.get fsA pathA = some (.symlink (.abs
          (bodyPath P1 (format_size dupBytes) (format_hash dupBytes)))) :=
        hlinksA0 pathA (by simp)
      have hlinkB : FS.get fsA pathB = some (.symlink (.abs
          (bodyPath P1 (format_size dupBytes) (format_hash dupBytes)))) :=
        hlinksA0 pathB (by simp)
      have hCA : FS.get fsA pathC = some (.file uniqBytes) := by
        have h := hframeA0 pathC (by decide)
          (by
            intro h
            simp [pathC, bodyPath, bodyDirname, hgrave, hcG] at h)
          (by
            rw [hprefD]
            intro hm
            simp only [List.mem_cons, List.not_mem_nil, or_false] at hm
            rcases hm with h | h | h
            · simp [pathC] at h
            · simp [pathC, hcG] at h
            · simp [pathC, hcG] at h)
        rw [h]
        rfl
      have hbodyUA : FS.get fsA bodyU = none := by
        have h := hframeA0 bodyU
          (by
            intro hm
            simp only [List.mem_cons, List.not_mem_nil, or_false] at hm
            rcases hm with h | h
            · simp [bodyU, bodyPath, bodyDirname, hgrave, pathA, hGa] at h
            · simp [bodyU, bodyPath, bodyDirname, hgrave, pathB, hGb] at h)
          (by
            intro h
            simp [bodyU, bodyPath, bodyDirname, hgrave] at h
            exact hsne h.1)
          (by
            rw [hprefD]
            intro hm
            simp only [List.mem_cons, List.not_mem_nil, or_false] at hm
            rcases hm with h | h | h
            · simp [bodyU, bodyPath, bodyDirname, hgrave] at h
            · simp [bodyU, bodyPath, bodyDirname, hgrave] at h
            · simp [bodyU, bodyPath, bodyDirname, hgrave] at h)
        rw [h]
        rfl
      have hstatA : FS.statNode fsA pathA = some (.file dupBytes) := by
        have h2 : ∀ u, FS.get fsA (targetPath pathA.dropLast (.abs
            (bodyPath P1 (format_size dupBytes) (format_hash dupBytes)))) ≠
            some (.symlink u) := by
          intro u
          show FS.get fsA
            (bodyPath P1 (format_size dupBytes) (format_hash dupBytes)) ≠
            some (.symlink u)
          simp [hbodyA]
        rw [statNode_symlink hlinkA h2]
        exact hbodyA
      have hstatB : FS.statNode fsA pathB = some (.file dupBytes) := by
        have h2 : ∀ u, FS.get fsA (targetPath pathB.dropLast (.abs
            (bodyPath P1 (format_size dupBytes) (format_hash dupBytes)))) ≠
            some (.symlink u) := by
          intro u
          show FS.get fsA
            (bodyPath P1 (format_size dupBytes) (format_hash dupBytes)) ≠
            some (.symlink u)
          simp [hbodyA]
        rw [statNode_symlink hlinkB h2]
        exact hbodyA
      have hisFileD : FS.isFile fsA
          (P1.grave ++ [format_size dupBytes, format_hash dupBytes]) = true :=
        isFile_file hbodyA
      have hEX := exhume_run_noforce P1 rfl rfl
        (P1.grave ++ [format_size dupBytes, format_hash dupBytes]) dupBytes
        (fun _ => .symlink (.abs
          (bodyPath P1 (format_size dupBytes) (format_hash dupBytes))))
        [pathA, pathB] fsA
        (by decide)
        hbodyA
        (by
          intro l hl
          simp only [List.mem_cons, List.not_mem_nil, or_false] at hl
          rcases hl with rfl | rfl
          · exact ⟨hlinkA, by simp⟩
          · exact ⟨hlinkB, by simp⟩)
        (by
          intro l hl
          simp only [List.mem_cons, List.not_mem_nil, or_false] at hl
          rcases hl with rfl | rfl
          · intro h
            simp [pathA, hgrave, haG] at h
          · intro h
            simp [pathB, hgrave, hbG] at h)
      obtain ⟨hexOut, hexBody, hexLinks, hexFrame⟩ := hEX
      cases hER : (exhume P1
          (P1.grave ++ [format_size dupBytes, format_hash dupBytes])
          [pathA, pathB]).run fsA with
      | error e s =>
          rw [hER] at hexOut
          cases hexOut
      | ok v fsB =>
          rw [hER] at hexOut hexBody hexLinks hexFrame
          simp only [resOut_ok, Option.some.injEq] at hexOut
          subst hexOut
          simp only [resFS_ok] at hexBody hexLinks hexFrame
          have hrh1 : (redupeHashes P1 P1.grave (format_size dupBytes)
              [(format_hash dupBytes, [pathA, pathB])]).run fsA =
              .ok [true] fsB := by
            simp [redupeHashes, hisFileD, hER, hforce]
          have hbodyUB : FS.get fsB
              (P1.grave ++ [format_size uniqBytes, format_hash uniqBytes]) =
              none := by
            have h := hexFrame
              (P1.grave ++ [format_size uniqBytes, format_hash uniqBytes])
              (by
                intro hm
                simp only [List.mem_cons, List.not_mem_nil, or_false] at hm
                rcases hm with h | h
                · simp [hgrave, pathA, hGa] at h
                · simp [hgrave, pathB, hGb] at h)
            rw [h]
            exact hbodyUA
          have hisFileU : FS.isFile fsB
              (P1.grave ++ [format_size uniqBytes, format_hash uniqBytes]) =
              false := isFile_none hbodyUB
          have hrh2 : (redupeHashes P1 P1.grave (format_size uniqBytes)
              [(format_hash uniqBytes, [pathC])]).run fsB = .ok [] fsB := by
            rw [redupeHashes_run_skip hisFileU]
            exact redupeHashes_run_nil _ _ _ _
          have hrs : (redupeSizes P1 P1.grave gwaks1).run fsA =
              .ok [true] fsB := by
            simp [redupeSizes, gwaks1, hrh1, hrh2, hforce]
          have hredupe : (redupe P1 gwaks1 P1.grave).run fsA = .ok true fsB := by
            simp [redupe, hrs]
          have hRB : runBury = .ok recs fsA := hded
          have hFSA : fsAfterBury = fsA := by
            show resFS runBury = fsA
            rw [hRB]
            rfl
          have hRE : runExhume = .ok true fsB := by
            show (redupe P1 gwaks1 P1.grave).run fsAfterBury = .ok true fsB
            rw [hFSA]
            exact hredupe
          have hFSB : fsAfterExhume = fsB := by
            show resFS runExhume = fsB
            rw [hRE]
            rfl
          refine ⟨?_, ?_, ?_, ?_, ?_, ?_, ?_, ?_, ?_, ?_, ?_, ?_, ?_⟩
          · show resErr runBury = none
            rw [hRB]
            rfl
          · rw [hFSA]
            exact hbodyA
          · rw [hFSA]
            exact hbodyUA
          · rw [hFSA]
            exact hlinkA
          · rw [hFSA]
            exact hlinkB
          · rw [hFSA]
            exact hstatA
          · rw [hFSA]
            exact hstatB
          · rw [hFSA]
            exact hCA
          · show resOut runExhume = some true
            rw [hRE]
            rfl
          · rw [hFSB]
            exact hexLinks pathA (by simp)
          · rw [hFSB]
            exact hexLinks pathB (by simp)
          · rw [hFSB]
            exact hexBody
          · rw [hFSB]
            have h := hexFrame pathC (by decide)
            rw [h]
            exact hCA

end Gwak
